import Mathlib

/-!
# Blueprint satisfaction and blueprint compilation (`unittest/clustering_reactor.cc`)

A shallow embedding of the helpers of the reactor test-suite:

* `is_blueprint_satisfied` (source lines 31-75), the predicate that compares a
  blueprint with the published reactor directory;
* `test_cluster_group_t::compile_blueprint` (lines 182-218), which turns a string
  such as `"pn,np"` into a blueprint;
* `test_cluster_group_t::wait_until_blueprint_is_satisfied` (lines 244-258).

Every `std::map` is represented by the list of its bindings.  The activity map of a
business card is listed in activity-id order, the order in which the scan visits it.  The
maps of a blueprint may be listed in any order: the result of the check does not depend
on it (`is_blueprint_satisfied_order`), and the statements about `compile_blueprint` speak
of membership only.
-/

namespace unittest

/-! ## Data model -/

/-- Peer identity (`peer_id_t`): an identifier without structure, represented by a number. -/
abbrev peer_id_t := Nat

/-- Key of the activity map of a business card (`reactor_activity_id_t`). -/
abbrev reactor_activity_id_t := Nat

/-- Modelled from the spec: `dummy_protocol_t::region_t` is declared outside
`clustering_reactor.cc`.  The spec describes a region as an interval over an ordered key
domain; the source builds one from two `char` bounds, `region_t(first, last)`.  The
bounds are kept as character codes; two regions are equal when both bounds are equal. -/
structure region_t where
  first : Nat
  last : Nat
deriving DecidableEq

/-- A key (a character code) lies in a region when it lies between the two bounds. -/
def region_t.contains (r : region_t) (k : Nat) : Prop := r.first ≤ k ∧ k ≤ r.last

instance (r : region_t) (k : Nat) : Decidable (r.contains k) := by
  unfold region_t.contains; infer_instance

/-- The enumeration `blueprint_t::role_t`, named as the source names its members. -/
inductive role_t where
  | role_primary
  | role_secondary
  | role_nothing
deriving DecidableEq

/-- Modelled from the spec: `reactor_business_card_t::activity_t` is declared outside
`clustering_reactor.cc`.  The source names the alternatives `primary_t`, `secondary_up_to_date_t` and
`nothing_t`; the spec's data model lists two more, `SecondaryBackfilling{source}` and
`PrimaryNotInCharge`. -/
inductive activity_t where
  | nothing_t
  | secondary_backfilling_t (source : peer_id_t)
  | secondary_up_to_date_t
  | primary_not_in_charge_t
  | primary_t
deriving DecidableEq

/-- Bindings of `blueprint_t::region_to_role_map_t`. -/
abbrev region_to_role_map_t := List (region_t × role_t)

/-- Modelled from the spec: `blueprint_t` is declared outside `clustering_reactor.cc`.
The spec describes it as a mapping from peer identity to a mapping from region to role;
the source reads it through the member `peers_roles`. -/
structure blueprint_t where
  peers_roles : List (peer_id_t × region_to_role_map_t)
deriving DecidableEq

/-- Bindings of `reactor_business_card_t::activity_map_t`, in activity-id order:
each activity id is bound to a pair of a region and an activity. -/
abbrev activity_map_t := List (reactor_activity_id_t × (region_t × activity_t))

/-- Modelled from the spec: `reactor_business_card_t` is declared outside
`clustering_reactor.cc`.  The spec describes the published entry of a peer as a mapping
from an activity identifier to a pair (region, activity); the source reads it through
`activities`. -/
structure reactor_business_card_t where
  activities : activity_map_t
deriving DecidableEq

/-- The reactor directory: each peer is bound to an optional business card. -/
abbrev reactor_directory_t := List (peer_id_t × Option reactor_business_card_t)

/-- The call `reactor_directory.find(peer)`: `none` stands for the `end()` iterator. -/
def reactor_directory_find (dir : reactor_directory_t) (peer : peer_id_t) :
    Option (Option reactor_business_card_t) :=
  match dir with
  | [] => none
  | (p, c) :: rest => if p = peer then some c else reactor_directory_find rest peer

/-! ## `is_blueprint_satisfied` (lines 31-75) -/

/-- The three accepting tests of lines 51-62: the role of the blueprint together with
the alternative held by the activity variant. -/
def role_accepts : role_t → activity_t → Bool
  | .role_primary, .primary_t => true
  | .role_secondary, .secondary_up_to_date_t => true
  | .role_nothing, .nothing_t => true
  | _, _ => false

/-- How the scan of one activity map ends (lines 46-71). -/
inductive scan_t where
  /-- The scan stopped at `found = true; break;`. -/
  | found
  /-- The loop ran to the end with `found` still false. -/
  | not_found
  /-- The `else` branch of line 63: `return false`. -/
  | rejected
deriving DecidableEq

/-- The innermost loop (lines 47-67) for one binding `(region, role)` of the blueprint. -/
def scan_activities (region : region_t) (role : role_t) : activity_map_t → scan_t
  | [] => .not_found
  | (_, (r, a)) :: rest =>
    if region = r then
      if role_accepts role a then .found else .rejected
    else scan_activities region role rest

/-- The loop over the roles of one peer (lines 43-72). -/
def check_roles (bcard : reactor_business_card_t) : region_to_role_map_t → Bool
  | [] => true
  | (region, role) :: rest =>
    match scan_activities region role bcard.activities with
    | .found => check_roles bcard rest
    | .not_found => false
    | .rejected => false

/-- The loop over the peers of the blueprint (lines 33-73). -/
def check_peers (reactor_directory : reactor_directory_t) :
    List (peer_id_t × region_to_role_map_t) → Bool
  | [] => true
  | (peer, roles) :: rest =>
    match reactor_directory_find reactor_directory peer with
    | none => false
    | some none => false
    | some (some bcard) =>
      if check_roles bcard roles then check_peers reactor_directory rest else false

/-- The function `is_blueprint_satisfied`. -/
def is_blueprint_satisfied (bp : blueprint_t) (reactor_directory : reactor_directory_t) : Bool :=
  check_peers reactor_directory bp.peers_roles

/-! ## `compile_blueprint` (lines 182-218) -/

/-- Modelled from the spec: the insertion into `region_to_role_map_t` that `add_role`
performs is declared outside `clustering_reactor.cc`.  The spec describes a mapping from
region to role, so a region is bound to one role only: a new region is bound to the
given role, and a region that is already bound keeps its binding, as with
`std::map::insert`. -/
def insert_role (m : region_to_role_map_t) (region : region_t) (role : role_t) :
    region_to_role_map_t :=
  if m.any (fun e => e.1 = region) then m else m ++ [(region, role)]

/-- Modelled from the spec: `blueprint_t::add_peer` is declared outside
`clustering_reactor.cc`.  The blueprint is a mapping from peer identity to a mapping from
region to role; adding a peer binds it to the empty mapping. -/
def blueprint_t.add_peer (bp : blueprint_t) (id : peer_id_t) : blueprint_t :=
  if bp.peers_roles.any (fun e => e.1 = id) then
    ⟨bp.peers_roles.map (fun e => if e.1 = id then (id, []) else e)⟩
  else ⟨bp.peers_roles ++ [(id, [])]⟩

/-- Modelled from the spec: `blueprint_t::add_role` is declared outside
`clustering_reactor.cc`.  It records the role of a peer for a region in the mapping of
that peer. -/
def blueprint_t.add_role (bp : blueprint_t) (id : peer_id_t) (region : region_t)
    (role : role_t) : blueprint_t :=
  if bp.peers_roles.any (fun e => e.1 = id) then
    ⟨bp.peers_roles.map (fun e => if e.1 = id then (e.1, insert_role e.2 region role) else e)⟩
  else ⟨bp.peers_roles ++ [(id, [(region, role)])]⟩

/-- The members of `test_cluster_group_t` that `compile_blueprint` reads: the vector
`test_clusters`, each cluster represented by the peer id that its `get_me()` returns. -/
structure test_cluster_group_t where
  test_clusters : List peer_id_t

/-- The member `get_peer_id` (lines 177-180); `none` stands for the failed assertion
`i < test_clusters.size()`. -/
def test_cluster_group_t.get_peer_id (g : test_cluster_group_t) (i : Nat) : Option peer_id_t :=
  g.test_clusters[i]?

/-- The tokenizer of lines 188-189, `boost::tokenizer` with `char_separator(",")`: the
tokens are the maximal runs of characters other than the comma, and empty tokens are
dropped.  The first argument is the token read so far. -/
def tokenize_from (cur : List Char) : List Char → List (List Char)
  | [] => if cur = [] then [] else [cur]
  | c :: rest =>
    if c = ',' then
      if cur = [] then tokenize_from [] rest else cur :: tokenize_from [] rest
    else tokenize_from (cur ++ [c]) rest

/-- The tokens of a blueprint string. -/
def tokenize (bp : List Char) : List (List Char) := tokenize_from [] bp

/-- The region built at line 198 for position `i` of a token of `size` characters:
`region_t('a' + ((i * 26)/size), 'a' + (((i + 1) * 26)/size) - 1)`.  The counter `i` is
an `unsigned`, so `i * 26` and `(i + 1) * 26` are taken modulo 2^32 = 4294967296; the
quotients and sums are 64-bit and do not wrap; each bound is then narrowed to a `char`. -/
def region_of_position (i size : Nat) : region_t :=
  ⟨(97 + (i * 26 % 4294967296) / size) % 256,
   (97 + ((i + 1) % 4294967296 * 26 % 4294967296) / size - 1) % 256⟩

/-- The `switch` of lines 200-213; `none` stands for `crash("Bad blueprint string")`. -/
def role_of_char : Char → Option role_t
  | 'p' => some .role_primary
  | 's' => some .role_secondary
  | 'n' => some .role_nothing
  | _ => none

/-- The inner loop (lines 197-214) over the characters of one token, from position `i`. -/
def compile_token (id : peer_id_t) (size : Nat) :
    List Char → Nat → blueprint_t → Option blueprint_t
  | [], _, blueprint => some blueprint
  | c :: rest, i, blueprint =>
    match role_of_char c with
    | none => none
    | some role =>
      compile_token id size rest (i + 1) (blueprint.add_role id (region_of_position i size) role)

/-- The outer loop (lines 192-216) over the tokens, with the counter `peer`.  A token of
2^32 characters or more yields no blueprint: the `unsigned` counter `i` stays below the
size of the token, and the inner loop does not end. -/
def compile_tokens (g : test_cluster_group_t) :
    List (List Char) → Nat → blueprint_t → Option blueprint_t
  | [], _, blueprint => some blueprint
  | tok :: rest, peer, blueprint =>
    if 4294967296 ≤ tok.length then none
    else
      match g.get_peer_id peer with
      | none => none
      | some id =>
        match compile_token id tok.length tok 0 (blueprint.add_peer id) with
        | none => none
        | some blueprint' => compile_tokens g rest (peer + 1) blueprint'

/-- The member `compile_blueprint`; `none` when the run ends in a crash, in a failed
assertion, or not at all. -/
def test_cluster_group_t.compile_blueprint (g : test_cluster_group_t) (bp : String) :
    Option blueprint_t :=
  compile_tokens g (tokenize bp.data) 0 ⟨[]⟩

/-- The roles that the inner loop records for one token, from position `i`, in a mapping
that starts as `acc`. -/
def token_roles (size : Nat) : List Char → Nat → region_to_role_map_t → Option region_to_role_map_t
  | [], _, acc => some acc
  | c :: rest, i, acc =>
    match role_of_char c with
    | none => none
    | some role => token_roles size rest (i + 1) (insert_role acc (region_of_position i size) role)

/-- The bindings that the outer loop adds for a list of tokens, the first token going to
the machine with index `peer`. -/
def token_entries (g : test_cluster_group_t) :
    List (List Char) → Nat → Option (List (peer_id_t × region_to_role_map_t))
  | [], _ => some []
  | tok :: rest, peer =>
    if 4294967296 ≤ tok.length then none
    else
      match g.get_peer_id peer with
      | none => none
      | some id =>
        match token_roles tok.length tok 0 [] with
        | none => none
        | some m =>
          match token_entries g rest (peer + 1) with
          | none => none
          | some es => some ((id, m) :: es)

/-! ## `wait_until_blueprint_is_satisfied` (lines 244-258) -/

/-- How a call of `wait_until_blueprint_is_satisfied` ends. -/
inductive wait_outcome_t where
  /-- The call of `run_until_satisfied` returned; no failure is recorded. -/
  | satisfied
  /-- The exception `interrupted_exc_t` was caught and `ADD_FAILURE()` recorded the message. -/
  | timeout_failure (message : String)
deriving DecidableEq

/-- Modelled from the spec: the wait inside `run_until_satisfied`, which is declared
outside `clustering_reactor.cc`.  The list holds the later values of the directory, each
with the time in milliseconds after the start of the call at which it is published, in
order of time.  The call tests each new value in turn and returns at the first one that
the predicate accepts.  The timer fires `timeout` milliseconds after the start: a value
published at that time or later comes after the timer, and so does the end of the list.
The result is `some t` when the call returns at time `t` and `none` when the timer
interrupts it. -/
def await_change (pred : reactor_directory_t → Bool) (timeout : Nat) :
    List (Nat × reactor_directory_t) → Option Nat
  | [] => none
  | (t, dir) :: rest =>
    if timeout ≤ t then none
    else if pred dir then some t
    else await_change pred timeout rest

/-- Modelled from the spec: `run_until_satisfied` and the timer `signal_timer_t` are
declared outside `clustering_reactor.cc`.  The spec describes a bounded wait that blocks
until the published activities match the blueprint or the timeout elapses.  The call
first tests the value `current` that the directory has when the call starts, and returns
at once when the predicate accepts it; otherwise it waits for the changes of the
directory.  The result is `some t` when the call returns at time `t` and `none` when it
ends in `interrupted_exc_t`. -/
def run_until_satisfied (pred : reactor_directory_t → Bool) (timeout : Nat)
    (current : reactor_directory_t) (changes : List (Nat × reactor_directory_t)) :
    Option Nat :=
  if pred current then some 0 else await_change pred timeout changes

/-- The text streamed into `ADD_FAILURE()` at line 254. -/
def timeout_message : String :=
  "The blueprint took too long to be satisfied, this is probably an error but you could try increasing the timeout. Heres the blueprint:"

/-- The member `wait_until_blueprint_is_satisfied` (lines 244-258), for a directory that
has the value `current` at the call and then changes as `changes` tells: the timer is set
to 2000 ms (line 246), the predicate is `is_blueprint_satisfied` for the blueprint (line
252), and the `catch` block records the failure (lines 253-255). -/
def wait_until_blueprint_is_satisfied (bp : blueprint_t) (current : reactor_directory_t)
    (changes : List (Nat × reactor_directory_t)) : wait_outcome_t :=
  match run_until_satisfied (fun dir => is_blueprint_satisfied bp dir) 2000 current changes with
  | some _ => .satisfied
  | none => .timeout_failure timeout_message

/-! ## Vocabulary of the specification -/

/-- The kind of activity the specification requires for a role: a primary activity for
the primary role, an up-to-date-secondary activity for the secondary role, a nothing
activity for no role. -/
def kind_matches (role : role_t) (a : activity_t) : Prop :=
  (role = .role_primary ∧ a = .primary_t) ∨
  (role = .role_secondary ∧ a = .secondary_up_to_date_t) ∨
  (role = .role_nothing ∧ a = .nothing_t)

instance (role : role_t) (a : activity_t) : Decidable (kind_matches role a) := by
  unfold kind_matches; infer_instance

/-- Every peer named in the blueprint has a present business card in the directory, and
for every (region, role) assigned to the peer the card contains an activity on exactly
that region whose kind matches the role. -/
def assignments_matched (bp : blueprint_t) (dir : reactor_directory_t) : Prop :=
  ∀ peer roles, (peer, roles) ∈ bp.peers_roles →
    ∃ bcard, reactor_directory_find dir peer = some (some bcard) ∧
      ∀ region role, (region, role) ∈ roles →
        ∃ id a, (id, (region, a)) ∈ bcard.activities ∧ kind_matches role a

/-- No business card present in the directory holds two activities with the same region. -/
def regions_unique (dir : reactor_directory_t) : Prop :=
  ∀ peer bcard, reactor_directory_find dir peer = some (some bcard) →
    (bcard.activities.map (fun x => x.2.1)).Nodup

/-- No business card present in the directory holds two activities whose regions
overlap, that is, share a key. -/
def activities_disjoint (dir : reactor_directory_t) : Prop :=
  ∀ peer bcard, reactor_directory_find dir peer = some (some bcard) →
    bcard.activities.Pairwise (fun x y => ∀ k, ¬ (x.2.1.contains k ∧ y.2.1.contains k))

/-- Every business card present in the directory belongs to a peer named in the
blueprint. -/
def cards_of_blueprint_peers (bp : blueprint_t) (dir : reactor_directory_t) : Prop :=
  ∀ peer bcard, reactor_directory_find dir peer = some (some bcard) →
    ∃ roles, (peer, roles) ∈ bp.peers_roles

/-- Two directories bind the same peers, and the cards of each peer hold the same
(region, activity) pairs, possibly under other activity ids: the activity map, which is
ordered by activity id, then lists the same activities in another order. -/
def same_cards_up_to_order (d₁ d₂ : reactor_directory_t) : Prop :=
  ∀ peer,
    (reactor_directory_find d₁ peer = none ∧ reactor_directory_find d₂ peer = none) ∨
    (reactor_directory_find d₁ peer = some none ∧ reactor_directory_find d₂ peer = some none) ∨
    ∃ c₁ c₂, reactor_directory_find d₁ peer = some (some c₁) ∧
      reactor_directory_find d₂ peer = some (some c₂) ∧
      (c₁.activities.map Prod.snd).Perm (c₂.activities.map Prod.snd)

/-- The mismatch set of the specification: the assignments (peer, region, role) of the
blueprint that the directory leaves unsatisfied, because the card of the peer is missing
or because the scan of the region does not end in `found`. -/
def unsatisfied_assignments (bp : blueprint_t) (dir : reactor_directory_t) :
    List (peer_id_t × region_t × role_t) :=
  (bp.peers_roles.map (fun e =>
    (e.2.filter (fun rr =>
      match reactor_directory_find dir e.1 with
      | some (some bcard) => decide (scan_activities rr.1 rr.2 bcard.activities ≠ .found)
      | _ => true)).map (fun rr => (e.1, rr.1, rr.2)))).flatten

/-! ## Basic facts about the scan -/

theorem scan_found_iff (region : region_t) (role : role_t) (acts : activity_map_t) :
    scan_activities region role acts = .found ↔
      ∃ l₁ id a l₂, acts = l₁ ++ (id, (region, a)) :: l₂ ∧
        (∀ x ∈ l₁, x.2.1 ≠ region) ∧ role_accepts role a = true := by
  induction acts with
  | nil => simp [scan_activities]
  | cons x rest ih =>
    obtain ⟨id, r, a⟩ := x
    by_cases h : region = r
    · subst h
      simp only [scan_activities, if_true]
      constructor
      · intro hf
        refine ⟨[], id, a, rest, rfl, by simp, ?_⟩
        by_cases hacc : role_accepts role a = true
        · exact hacc
        · simp [hacc] at hf
      · rintro ⟨l₁, id', a', l₂, heq, hne, hacc⟩
        cases l₁ with
        | nil =>
          simp only [List.nil_append, List.cons.injEq, Prod.mk.injEq, true_and] at heq
          obtain ⟨⟨_, rfl⟩, _⟩ := heq
          simp [hacc]
        | cons y l₁ =>
          simp only [List.cons_append, List.cons.injEq] at heq
          exact absurd (by rw [← heq.1]) (hne y (List.mem_cons_self _ _))
    · simp only [scan_activities, if_neg h, ih]
      constructor
      · rintro ⟨l₁, id', a', l₂, heq, hne, hacc⟩
        refine ⟨(id, (r, a)) :: l₁, id', a', l₂, by simp [heq], ?_, hacc⟩
        intro x hx
        rcases List.mem_cons.1 hx with rfl | hx
        · exact fun h' => h h'.symm
        · exact hne x hx
      · rintro ⟨l₁, id', a', l₂, heq, hne, hacc⟩
        cases l₁ with
        | nil =>
          simp only [List.nil_append, List.cons.injEq, Prod.mk.injEq] at heq
          exact absurd heq.1.2.1.symm h
        | cons y l₁ =>
          simp only [List.cons_append, List.cons.injEq] at heq
          exact ⟨l₁, id', a', l₂, heq.2, fun x hx => hne x (List.mem_cons_of_mem _ hx), hacc⟩

theorem check_roles_iff (bcard : reactor_business_card_t) (roles : region_to_role_map_t) :
    check_roles bcard roles = true ↔
      ∀ region role, (region, role) ∈ roles →
        scan_activities region role bcard.activities = .found := by
  induction roles with
  | nil => simp [check_roles]
  | cons x rest ih =>
    obtain ⟨r, ro⟩ := x
    simp only [check_roles, List.mem_cons, Prod.mk.injEq]
    cases hs : scan_activities r ro bcard.activities with
    | found =>
      simp only [ih]
      constructor
      · intro h region role hm
        rcases hm with ⟨rfl, rfl⟩ | hm
        · exact hs
        · exact h region role hm
      · intro h region role hm
        exact h region role (Or.inr hm)
    | not_found =>
      simp only [Bool.false_eq_true, false_iff]
      intro h
      have := h r ro (Or.inl ⟨rfl, rfl⟩)
      rw [hs] at this
      cases this
    | rejected =>
      simp only [Bool.false_eq_true, false_iff]
      intro h
      have := h r ro (Or.inl ⟨rfl, rfl⟩)
      rw [hs] at this
      cases this

theorem check_peers_iff (dir : reactor_directory_t) (prs : List (peer_id_t × region_to_role_map_t)) :
    check_peers dir prs = true ↔
      ∀ peer roles, (peer, roles) ∈ prs →
        ∃ bcard, reactor_directory_find dir peer = some (some bcard) ∧
          check_roles bcard roles = true := by
  induction prs with
  | nil => simp [check_peers]
  | cons x rest ih =>
    obtain ⟨p, ro⟩ := x
    simp only [check_peers, List.mem_cons, Prod.mk.injEq]
    constructor
    · intro h peer roles hm
      rcases hf : reactor_directory_find dir p with _ | _ | bcard
      · simp [hf] at h
      · simp [hf] at h
      · simp only [hf] at h
        by_cases hc : check_roles bcard ro = true
        · simp only [hc, if_true] at h
          rcases hm with ⟨rfl, rfl⟩ | hm
          · exact ⟨bcard, hf, hc⟩
          · exact ih.1 h peer roles hm
        · simp [hc] at h
    · intro h
      obtain ⟨bcard, hf, hc⟩ := h p ro (Or.inl ⟨rfl, rfl⟩)
      simp only [hf, hc, if_true]
      exact ih.2 (fun peer roles hm => h peer roles (Or.inr hm))

/-- The satisfaction check holds exactly when every peer of the blueprint has a present
card on which the scan of every assigned (region, role) ends in `found`. -/
theorem is_blueprint_satisfied_iff (bp : blueprint_t) (dir : reactor_directory_t) :
    is_blueprint_satisfied bp dir = true ↔
      ∀ peer roles, (peer, roles) ∈ bp.peers_roles →
        ∃ bcard, reactor_directory_find dir peer = some (some bcard) ∧
          ∀ region role, (region, role) ∈ roles →
            scan_activities region role bcard.activities = .found := by
  unfold is_blueprint_satisfied
  rw [check_peers_iff]
  constructor
  · intro h peer roles hm
    obtain ⟨bcard, hf, hc⟩ := h peer roles hm
    exact ⟨bcard, hf, (check_roles_iff bcard roles).1 hc⟩
  · intro h peer roles hm
    obtain ⟨bcard, hf, hc⟩ := h peer roles hm
    exact ⟨bcard, hf, (check_roles_iff bcard roles).2 hc⟩

theorem role_accepts_iff (role : role_t) (a : activity_t) :
    role_accepts role a = true ↔ kind_matches role a := by
  cases role <;> cases a <;> simp [role_accepts, kind_matches]

theorem mem_of_scan_found {region : region_t} {role : role_t} {acts : activity_map_t}
    (h : scan_activities region role acts = .found) :
    ∃ id a, (id, (region, a)) ∈ acts ∧ kind_matches role a := by
  obtain ⟨l₁, id, a, l₂, heq, -, hacc⟩ := (scan_found_iff region role acts).1 h
  exact ⟨id, a, by simp [heq], (role_accepts_iff role a).1 hacc⟩

theorem scan_not_found_of_absent {region : region_t} {role : role_t} {acts : activity_map_t}
    (h : ∀ x ∈ acts, x.2.1 ≠ region) : scan_activities region role acts = .not_found := by
  induction acts with
  | nil => rfl
  | cons x rest ih =>
    obtain ⟨id, r, a⟩ := x
    have hr : region ≠ r := fun e => h (id, (r, a)) (List.mem_cons_self _ _) e.symm
    simp only [scan_activities, if_neg hr]
    exact ih (fun y hy => h y (List.mem_cons_of_mem _ hy))

theorem scan_at_first (region : region_t) (role : role_t) (before : activity_map_t)
    (id : reactor_activity_id_t) (a : activity_t) (after : activity_map_t)
    (h : ∀ x ∈ before, x.2.1 ≠ region) :
    scan_activities region role (before ++ (id, (region, a)) :: after) =
      if role_accepts role a then .found else .rejected := by
  induction before with
  | nil => simp [scan_activities]
  | cons x rest ih =>
    obtain ⟨id', r, a'⟩ := x
    have hr : region ≠ r := fun e => h (id', (r, a')) (List.mem_cons_self _ _) e.symm
    simp only [List.cons_append, scan_activities, if_neg hr]
    exact ih (fun y hy => h y (List.mem_cons_of_mem _ hy))

/-- The blueprint is read as a set of peers and of (peer, region, role) assignments: two
blueprints that agree on both give the same result, whatever the order of their maps. -/
theorem is_blueprint_satisfied_order (bp₁ bp₂ : blueprint_t) (dir : reactor_directory_t)
    (hp : ∀ p, (∃ roles, (p, roles) ∈ bp₁.peers_roles) ↔ (∃ roles, (p, roles) ∈ bp₂.peers_roles))
    (hr : ∀ p r role, (∃ roles, (p, roles) ∈ bp₁.peers_roles ∧ (r, role) ∈ roles) ↔
      (∃ roles, (p, roles) ∈ bp₂.peers_roles ∧ (r, role) ∈ roles)) :
    is_blueprint_satisfied bp₁ dir = is_blueprint_satisfied bp₂ dir := by
  have key : ∀ b₁ b₂ : blueprint_t,
      (∀ p, (∃ roles, (p, roles) ∈ b₁.peers_roles) → (∃ roles, (p, roles) ∈ b₂.peers_roles)) →
      (∀ p r role, (∃ roles, (p, roles) ∈ b₁.peers_roles ∧ (r, role) ∈ roles) →
        (∃ roles, (p, roles) ∈ b₂.peers_roles ∧ (r, role) ∈ roles)) →
      is_blueprint_satisfied b₂ dir = true → is_blueprint_satisfied b₁ dir = true := by
    intro b₁ b₂ h1 h2 hsat
    rw [is_blueprint_satisfied_iff] at hsat ⊢
    intro peer roles hm
    obtain ⟨roles₂, hm₂⟩ := h1 peer ⟨roles, hm⟩
    obtain ⟨bcard, hf, -⟩ := hsat peer roles₂ hm₂
    refine ⟨bcard, hf, fun region role hrr => ?_⟩
    obtain ⟨roles₃, hm₃, hr₃⟩ := h2 peer region role ⟨roles, hm, hrr⟩
    obtain ⟨bcard', hf', hs'⟩ := hsat peer roles₃ hm₃
    rw [hf] at hf'
    simp only [Option.some.injEq] at hf'
    subst hf'
    exact hs' region role hr₃
  rw [Bool.eq_iff_iff]
  exact ⟨key bp₂ bp₁ (fun p => (hp p).2) (fun p r role => (hr p r role).2),
    key bp₁ bp₂ (fun p => (hp p).1) (fun p r role => (hr p r role).1)⟩

/-- When no two activities of the map share a region, the scan ends in `found` exactly
when some activity on the region is accepted for the role. -/
theorem scan_found_iff_of_nodup (region : region_t) (role : role_t) (acts : activity_map_t)
    (hn : (acts.map (fun x => x.2.1)).Nodup) :
    scan_activities region role acts = .found ↔
      ∃ id a, (id, (region, a)) ∈ acts ∧ kind_matches role a := by
  refine ⟨mem_of_scan_found, ?_⟩
  rintro ⟨id, a, hm, hk⟩
  induction acts with
  | nil => cases hm
  | cons x rest ih =>
    obtain ⟨id', r, a'⟩ := x
    simp only [List.map_cons, List.nodup_cons, List.mem_map, not_exists, not_and] at hn
    by_cases hr : region = r
    · subst hr
      rcases List.mem_cons.1 hm with heq | hm
      · simp only [Prod.mk.injEq, true_and] at heq
        obtain ⟨-, rfl⟩ := heq
        simp [scan_activities, (role_accepts_iff role a).2 hk]
      · exact absurd rfl (hn.1 (id, (region, a)) hm)
    · simp only [scan_activities, if_neg hr]
      rcases List.mem_cons.1 hm with heq | hm
      · simp only [Prod.mk.injEq] at heq
        exact absurd heq.2.1 hr
      · exact ih hn.2 hm

/-! ## The satisfaction check -/

/-- C1 (soundness of the satisfaction check): when `is_blueprint_satisfied bp dir`
returns true, every peer named in `bp` has a present business card in `dir`, and for
every (region, role) that `bp` assigns to the peer the card contains an activity whose
region equals that region and whose kind matches the role (`primary_t` for
`role_primary`, `secondary_up_to_date_t` for `role_secondary`, `nothing_t` for
`role_nothing`). -/
theorem is_blueprint_satisfied_sound (bp : blueprint_t) (dir : reactor_directory_t)
    (h : is_blueprint_satisfied bp dir = true) :
    ∀ peer roles, (peer, roles) ∈ bp.peers_roles →
      ∃ bcard, reactor_directory_find dir peer = some (some bcard) ∧
        ∀ region role, (region, role) ∈ roles →
          ∃ id a, (id, (region, a)) ∈ bcard.activities ∧
            ((role = .role_primary ∧ a = .primary_t) ∨
             (role = .role_secondary ∧ a = .secondary_up_to_date_t) ∨
             (role = .role_nothing ∧ a = .nothing_t)) := by
  intro peer roles hm
  obtain ⟨bcard, hf, hs⟩ := (is_blueprint_satisfied_iff bp dir).1 h peer roles hm
  exact ⟨bcard, hf, fun region role hr => mem_of_scan_found (hs region role hr)⟩

/-- Witness for C1: the blueprint of `"p,n"` on peers 0 and 1 against a directory in
which peer 0 advertises a primary and peer 1 a nothing activity on `'a'..'z'`. -/
theorem is_blueprint_satisfied_sound_witness :
    is_blueprint_satisfied
        ⟨[(0, [(⟨97, 122⟩, .role_primary)]), (1, [(⟨97, 122⟩, .role_nothing)])]⟩
        [(0, some ⟨[(7, (⟨97, 122⟩, .primary_t))]⟩), (1, some ⟨[(3, (⟨97, 122⟩, .nothing_t))]⟩)]
      = true ∧
    ∀ peer roles, (peer, roles) ∈
        (blueprint_t.mk [(0, [(⟨97, 122⟩, .role_primary)]), (1, [(⟨97, 122⟩, .role_nothing)])]).peers_roles →
      ∃ bcard, reactor_directory_find
          [(0, some ⟨[(7, (⟨97, 122⟩, .primary_t))]⟩), (1, some ⟨[(3, (⟨97, 122⟩, .nothing_t))]⟩)]
          peer = some (some bcard) ∧
        ∀ region role, (region, role) ∈ roles →
          ∃ id a, (id, (region, a)) ∈ bcard.activities ∧
            ((role = .role_primary ∧ a = .primary_t) ∨
             (role = .role_secondary ∧ a = .secondary_up_to_date_t) ∨
             (role = .role_nothing ∧ a = .nothing_t)) :=
  ⟨by decide, is_blueprint_satisfied_sound
    ⟨[(0, [(⟨97, 122⟩, .role_primary)]), (1, [(⟨97, 122⟩, .role_nothing)])]⟩
    [(0, some ⟨[(7, (⟨97, 122⟩, .primary_t))]⟩), (1, some ⟨[(3, (⟨97, 122⟩, .nothing_t))]⟩)]
    (by decide)⟩

/-- C2, refuted as stated: peer 0 is assigned the primary role on `'a'..'z'` and its
present card holds a primary activity on exactly that region, yet the check returns
false, because an activity with a smaller id on the same region is of another kind. -/
theorem is_blueprint_satisfied_complete_counterexample :
    assignments_matched ⟨[(0, [(⟨97, 122⟩, .role_primary)])]⟩
        [(0, some ⟨[(1, (⟨97, 122⟩, .nothing_t)), (2, (⟨97, 122⟩, .primary_t))]⟩)] ∧
      is_blueprint_satisfied ⟨[(0, [(⟨97, 122⟩, .role_primary)])]⟩
        [(0, some ⟨[(1, (⟨97, 122⟩, .nothing_t)), (2, (⟨97, 122⟩, .primary_t))]⟩)] = false := by
  refine ⟨?_, by decide⟩
  intro peer roles hm
  simp only [List.mem_singleton, Prod.mk.injEq] at hm
  obtain ⟨rfl, rfl⟩ := hm
  refine ⟨⟨[(1, (⟨97, 122⟩, .nothing_t)), (2, (⟨97, 122⟩, .primary_t))]⟩, by decide, ?_⟩
  intro region role hr
  simp only [List.mem_singleton, Prod.mk.injEq] at hr
  obtain ⟨rfl, rfl⟩ := hr
  exact ⟨2, .primary_t, by decide, by decide⟩

/-- C2, amended: if every peer named in `bp` has a present business card in `dir` and,
for every (region, role) that `bp` assigns to the peer, the first activity of the card
(in activity-id order) on exactly that region has the kind matching the role, then
`is_blueprint_satisfied bp dir` returns true. -/
theorem is_blueprint_satisfied_complete_first (bp : blueprint_t) (dir : reactor_directory_t)
    (h : ∀ peer roles, (peer, roles) ∈ bp.peers_roles →
      ∃ bcard, reactor_directory_find dir peer = some (some bcard) ∧
        ∀ region role, (region, role) ∈ roles →
          ∃ before id a after, bcard.activities = before ++ (id, (region, a)) :: after ∧
            (∀ x ∈ before, x.2.1 ≠ region) ∧ kind_matches role a) :
    is_blueprint_satisfied bp dir = true := by
  rw [is_blueprint_satisfied_iff]
  intro peer roles hm
  obtain ⟨bcard, hf, hs⟩ := h peer roles hm
  refine ⟨bcard, hf, fun region role hr => ?_⟩
  obtain ⟨l₁, id, a, l₂, heq, hne, hk⟩ := hs region role hr
  exact (scan_found_iff region role bcard.activities).2
    ⟨l₁, id, a, l₂, heq, hne, (role_accepts_iff role a).2 hk⟩

/-- Witness for the amended C2: peer 0 is primary on `'a'..'m'`; its card lists an
activity on `'n'..'z'` first and the primary activity on `'a'..'m'` second. -/
theorem is_blueprint_satisfied_complete_first_witness :
    is_blueprint_satisfied ⟨[(0, [(⟨97, 109⟩, .role_primary)])]⟩
      [(0, some ⟨[(1, (⟨110, 122⟩, .nothing_t)), (2, (⟨97, 109⟩, .primary_t))]⟩)] = true :=
  is_blueprint_satisfied_complete_first ⟨[(0, [(⟨97, 109⟩, .role_primary)])]⟩
    [(0, some ⟨[(1, (⟨110, 122⟩, .nothing_t)), (2, (⟨97, 109⟩, .primary_t))]⟩)]
    (by
      intro peer roles hm
      simp only [List.mem_singleton, Prod.mk.injEq] at hm
      obtain ⟨rfl, rfl⟩ := hm
      refine ⟨⟨[(1, (⟨110, 122⟩, .nothing_t)), (2, (⟨97, 109⟩, .primary_t))]⟩, by decide, ?_⟩
      intro region role hr
      simp only [List.mem_singleton, Prod.mk.injEq] at hr
      obtain ⟨rfl, rfl⟩ := hr
      exact ⟨[(1, (⟨110, 122⟩, .nothing_t))], 2, .primary_t, [], rfl, by decide, by decide⟩)

/-- C4, refuted as stated: in the blueprint of `"p,n"` peer 1 has no role on
`'a'..'z'`, its present card holds no activity at all, and the only other assignment
(peer 0, primary) is matched; the check nevertheless returns false. -/
theorem absent_activity_counterexample :
    reactor_directory_find
        [(0, some ⟨[(7, (⟨97, 122⟩, .primary_t))]⟩), (1, some ⟨[]⟩)] 1 = some (some ⟨[]⟩) ∧
      (1, [((⟨97, 122⟩ : region_t), role_t.role_nothing)]) ∈
        (blueprint_t.mk [(0, [(⟨97, 122⟩, .role_primary)]),
          (1, [(⟨97, 122⟩, .role_nothing)])]).peers_roles ∧
      (∀ x ∈ (reactor_business_card_t.mk []).activities, x.2.1 ≠ ⟨97, 122⟩) ∧
      is_blueprint_satisfied ⟨[(0, [(⟨97, 122⟩, .role_primary)])]⟩
        [(0, some ⟨[(7, (⟨97, 122⟩, .primary_t))]⟩), (1, some ⟨[]⟩)] = true ∧
      is_blueprint_satisfied
        ⟨[(0, [(⟨97, 122⟩, .role_primary)]), (1, [(⟨97, 122⟩, .role_nothing)])]⟩
        [(0, some ⟨[(7, (⟨97, 122⟩, .primary_t))]⟩), (1, some ⟨[]⟩)] = false := by
  refine ⟨by decide, by decide, ?_, by decide, by decide⟩
  intro x hx
  cases hx

/-- C4, amended: an assignment (region, `role_nothing`) is matched only by a `nothing_t`
activity advertised on exactly that region.  If the present card of the peer contains no
activity at all for the region, `is_blueprint_satisfied` returns false, whatever the other
assignments are; and whenever the check returns true the card holds a `nothing_t`
activity on that region. -/
theorem absent_activity_rejected (bp : blueprint_t) (dir : reactor_directory_t)
    (peer : peer_id_t) (roles : region_to_role_map_t) (region : region_t)
    (bcard : reactor_business_card_t)
    (hp : (peer, roles) ∈ bp.peers_roles) (hr : (region, role_t.role_nothing) ∈ roles)
    (hc : reactor_directory_find dir peer = some (some bcard)) :
    ((∀ x ∈ bcard.activities, x.2.1 ≠ region) → is_blueprint_satisfied bp dir = false) ∧
    (is_blueprint_satisfied bp dir = true →
      ∃ id, (id, (region, activity_t.nothing_t)) ∈ bcard.activities) := by
  have key : is_blueprint_satisfied bp dir = true →
      scan_activities region .role_nothing bcard.activities = .found := by
    intro h
    obtain ⟨bcard', hf, hs⟩ := (is_blueprint_satisfied_iff bp dir).1 h peer roles hp
    rw [hc] at hf
    simp only [Option.some.injEq] at hf
    subst hf
    exact hs region .role_nothing hr
  constructor
  · intro habs
    cases hsat : is_blueprint_satisfied bp dir with
    | false => rfl
    | true =>
      have h1 := key hsat
      rw [scan_not_found_of_absent habs] at h1
      cases h1
  · intro hsat
    obtain ⟨id, a, hm, hk⟩ := mem_of_scan_found (key hsat)
    rcases hk with ⟨h, -⟩ | ⟨h, -⟩ | ⟨-, rfl⟩
    · cases h
    · cases h
    · exact ⟨id, hm⟩

/-- Witness for the amended C4, on the blueprint of `"p,n"` and a directory in which the
card of peer 1 is present and empty. -/
theorem absent_activity_rejected_witness :
    (1, [((⟨97, 122⟩ : region_t), role_t.role_nothing)]) ∈
        (blueprint_t.mk [(0, [(⟨97, 122⟩, .role_primary)]),
          (1, [(⟨97, 122⟩, .role_nothing)])]).peers_roles ∧
      ((∀ x ∈ (reactor_business_card_t.mk []).activities, x.2.1 ≠ ⟨97, 122⟩) →
        is_blueprint_satisfied
          ⟨[(0, [(⟨97, 122⟩, .role_primary)]), (1, [(⟨97, 122⟩, .role_nothing)])]⟩
          [(0, some ⟨[(7, (⟨97, 122⟩, .primary_t))]⟩), (1, some ⟨[]⟩)] = false) ∧
      (is_blueprint_satisfied
          ⟨[(0, [(⟨97, 122⟩, .role_primary)]), (1, [(⟨97, 122⟩, .role_nothing)])]⟩
          [(0, some ⟨[(7, (⟨97, 122⟩, .primary_t))]⟩), (1, some ⟨[]⟩)] = true →
        ∃ id, (id, ((⟨97, 122⟩ : region_t), activity_t.nothing_t)) ∈
          (reactor_business_card_t.mk []).activities) :=
  ⟨by decide,
   absent_activity_rejected
    ⟨[(0, [(⟨97, 122⟩, .role_primary)]), (1, [(⟨97, 122⟩, .role_nothing)])]⟩
    [(0, some ⟨[(7, (⟨97, 122⟩, .primary_t))]⟩), (1, some ⟨[]⟩)]
    1 [(⟨97, 122⟩, .role_nothing)] ⟨97, 122⟩ ⟨[]⟩ (by decide) (by decide) (by decide)⟩

theorem is_blueprint_satisfied_iff_of_unique (bp : blueprint_t) (dir : reactor_directory_t)
    (hu : regions_unique dir) :
    is_blueprint_satisfied bp dir = true ↔ assignments_matched bp dir := by
  rw [is_blueprint_satisfied_iff]
  constructor
  · intro h peer roles hm
    obtain ⟨bcard, hf, hs⟩ := h peer roles hm
    exact ⟨bcard, hf, fun region role hr => mem_of_scan_found (hs region role hr)⟩
  · intro h peer roles hm
    obtain ⟨bcard, hf, hs⟩ := h peer roles hm
    exact ⟨bcard, hf, fun region role hr =>
      (scan_found_iff_of_nodup region role bcard.activities (hu peer bcard hf)).2
        (hs region role hr)⟩

theorem assignments_matched_of_same_cards {bp : blueprint_t} {d₁ d₂ : reactor_directory_t}
    (hs : same_cards_up_to_order d₁ d₂) (h : assignments_matched bp d₁) :
    assignments_matched bp d₂ := by
  intro peer roles hm
  obtain ⟨bcard, hf, hr⟩ := h peer roles hm
  rcases hs peer with ⟨h1, -⟩ | ⟨h1, -⟩ | ⟨c₁, c₂, h1, h2, hperm⟩
  · rw [h1] at hf; cases hf
  · rw [h1] at hf; cases hf
  · rw [h1] at hf
    simp only [Option.some.injEq] at hf
    subst hf
    refine ⟨c₂, h2, fun region role hrr => ?_⟩
    obtain ⟨id, a, hmem, hk⟩ := hr region role hrr
    have h₁ : (region, a) ∈ c₁.activities.map Prod.snd :=
      List.mem_map.2 ⟨(id, (region, a)), hmem, rfl⟩
    obtain ⟨⟨id', ra⟩, hmem', heq⟩ := List.mem_map.1 (hperm.mem_iff.1 h₁)
    simp only at heq
    subst heq
    exact ⟨id', a, hmem', hk⟩

theorem same_cards_up_to_order_symm {d₁ d₂ : reactor_directory_t}
    (hs : same_cards_up_to_order d₁ d₂) : same_cards_up_to_order d₂ d₁ := by
  intro peer
  rcases hs peer with ⟨h1, h2⟩ | ⟨h1, h2⟩ | ⟨c₁, c₂, h1, h2, hperm⟩
  · exact Or.inl ⟨h2, h1⟩
  · exact Or.inr (Or.inl ⟨h2, h1⟩)
  · exact Or.inr (Or.inr ⟨c₂, c₁, h2, h1, hperm.symm⟩)

theorem regions_unique_of_same_cards {d₁ d₂ : reactor_directory_t}
    (hs : same_cards_up_to_order d₁ d₂) (hu : regions_unique d₁) : regions_unique d₂ := by
  intro peer bcard hf
  rcases hs peer with ⟨-, h2⟩ | ⟨-, h2⟩ | ⟨c₁, c₂, h1, h2, hperm⟩
  · rw [h2] at hf; cases hf
  · rw [h2] at hf; cases hf
  · rw [h2] at hf
    simp only [Option.some.injEq] at hf
    subst hf
    have h₁ := hu peer c₁ h1
    have e : ∀ l : activity_map_t,
        l.map (fun x => x.2.1) = (l.map Prod.snd).map Prod.fst := by
      intro l
      rw [List.map_map]
      rfl
    rw [e] at h₁ ⊢
    exact ((hperm.map Prod.fst).nodup_iff).1 h₁

/-- C9 (completeness under region uniqueness): in a directory in which no business card
holds two activities with the same region, `is_blueprint_satisfied bp dir` returns true
whenever every peer of `bp` has a present card and every (region, role) assignment has an
activity on exactly that region with the matching kind.  The scan decides an assignment
by the first activity, in activity-id order, whose region equals the assigned region; and
with unique regions the result is the same for every order of the activity maps, that
is, for every directory whose cards hold the same (region, activity) pairs under
whatever activity ids. -/
theorem is_blueprint_satisfied_complete_unique (bp : blueprint_t) (dir : reactor_directory_t)
    (hu : regions_unique dir) :
    (assignments_matched bp dir → is_blueprint_satisfied bp dir = true) ∧
    (∀ region role before id a after, (∀ x ∈ before, x.2.1 ≠ region) →
      (kind_matches role a →
        scan_activities region role (before ++ (id, (region, a)) :: after) = .found) ∧
      (¬ kind_matches role a →
        scan_activities region role (before ++ (id, (region, a)) :: after) = .rejected)) ∧
    (∀ dir', same_cards_up_to_order dir dir' →
      is_blueprint_satisfied bp dir' = is_blueprint_satisfied bp dir) := by
  refine ⟨(is_blueprint_satisfied_iff_of_unique bp dir hu).2, ?_, ?_⟩
  · intro region role before id a after hb
    rw [scan_at_first region role before id a after hb, ← role_accepts_iff]
    constructor
    · intro h; simp [h]
    · intro h; simp [h]
  · intro dir' hs
    have hu' := regions_unique_of_same_cards hs hu
    rw [Bool.eq_iff_iff, is_blueprint_satisfied_iff_of_unique bp dir hu,
      is_blueprint_satisfied_iff_of_unique bp dir' hu']
    exact ⟨assignments_matched_of_same_cards (same_cards_up_to_order_symm hs),
      assignments_matched_of_same_cards hs⟩


theorem regions_unique_example :
    regions_unique
      [(0, some ⟨[(1, (⟨97, 109⟩, .primary_t)), (2, (⟨110, 122⟩, .nothing_t))]⟩),
       (1, some ⟨[(1, (⟨97, 109⟩, .nothing_t)), (2, (⟨110, 122⟩, .primary_t))]⟩)] := by
  intro peer bcard h
  simp only [reactor_directory_find] at h
  split_ifs at h
  · simp only [Option.some.injEq] at h
    subst h
    decide
  · simp only [Option.some.injEq] at h
    subst h
    decide

theorem same_cards_up_to_order_example :
    same_cards_up_to_order
      [(0, some ⟨[(1, (⟨97, 109⟩, .primary_t)), (2, (⟨110, 122⟩, .nothing_t))]⟩),
       (1, some ⟨[(1, (⟨97, 109⟩, .nothing_t)), (2, (⟨110, 122⟩, .primary_t))]⟩)]
      [(0, some ⟨[(1, (⟨110, 122⟩, .nothing_t)), (2, (⟨97, 109⟩, .primary_t))]⟩),
       (1, some ⟨[(5, (⟨110, 122⟩, .primary_t)), (8, (⟨97, 109⟩, .nothing_t))]⟩)] := by
  intro peer
  by_cases h0 : peer = 0
  · subst h0
    exact Or.inr (Or.inr ⟨_, _, rfl, rfl, List.Perm.swap _ _ _⟩)
  · by_cases h1 : peer = 1
    · subst h1
      exact Or.inr (Or.inr ⟨_, _, rfl, rfl, List.Perm.swap _ _ _⟩)
    · refine Or.inl ⟨?_, ?_⟩ <;>
        simp [reactor_directory_find, Ne.symm h0, Ne.symm h1]

/-- Witness for C9: the blueprint of `"pn,np"` on peers 0 and 1 against a directory whose
two cards each hold one activity per region, and against a second directory in which the
same activities carry other ids, so that every activity map lists them in the opposite
order. -/
theorem is_blueprint_satisfied_complete_unique_witness :
    regions_unique
      [(0, some ⟨[(1, (⟨97, 109⟩, .primary_t)), (2, (⟨110, 122⟩, .nothing_t))]⟩),
       (1, some ⟨[(1, (⟨97, 109⟩, .nothing_t)), (2, (⟨110, 122⟩, .primary_t))]⟩)] ∧
    is_blueprint_satisfied
      ⟨[(0, [(⟨97, 109⟩, .role_primary), (⟨110, 122⟩, .role_nothing)]),
        (1, [(⟨97, 109⟩, .role_nothing), (⟨110, 122⟩, .role_primary)])]⟩
      [(0, some ⟨[(1, (⟨97, 109⟩, .primary_t)), (2, (⟨110, 122⟩, .nothing_t))]⟩),
       (1, some ⟨[(1, (⟨97, 109⟩, .nothing_t)), (2, (⟨110, 122⟩, .primary_t))]⟩)] = true ∧
    same_cards_up_to_order
      [(0, some ⟨[(1, (⟨97, 109⟩, .primary_t)), (2, (⟨110, 122⟩, .nothing_t))]⟩),
       (1, some ⟨[(1, (⟨97, 109⟩, .nothing_t)), (2, (⟨110, 122⟩, .primary_t))]⟩)]
      [(0, some ⟨[(1, (⟨110, 122⟩, .nothing_t)), (2, (⟨97, 109⟩, .primary_t))]⟩),
       (1, some ⟨[(5, (⟨110, 122⟩, .primary_t)), (8, (⟨97, 109⟩, .nothing_t))]⟩)] ∧
    is_blueprint_satisfied
      ⟨[(0, [(⟨97, 109⟩, .role_primary), (⟨110, 122⟩, .role_nothing)]),
        (1, [(⟨97, 109⟩, .role_nothing), (⟨110, 122⟩, .role_primary)])]⟩
      [(0, some ⟨[(1, (⟨110, 122⟩, .nothing_t)), (2, (⟨97, 109⟩, .primary_t))]⟩),
       (1, some ⟨[(5, (⟨110, 122⟩, .primary_t)), (8, (⟨97, 109⟩, .nothing_t))]⟩)] =
    is_blueprint_satisfied
      ⟨[(0, [(⟨97, 109⟩, .role_primary), (⟨110, 122⟩, .role_nothing)]),
        (1, [(⟨97, 109⟩, .role_nothing), (⟨110, 122⟩, .role_primary)])]⟩
      [(0, some ⟨[(1, (⟨97, 109⟩, .primary_t)), (2, (⟨110, 122⟩, .nothing_t))]⟩),
       (1, some ⟨[(1, (⟨97, 109⟩, .nothing_t)), (2, (⟨110, 122⟩, .primary_t))]⟩)] := by
  have h := is_blueprint_satisfied_complete_unique
    ⟨[(0, [(⟨97, 109⟩, .role_primary), (⟨110, 122⟩, .role_nothing)]),
      (1, [(⟨97, 109⟩, .role_nothing), (⟨110, 122⟩, .role_primary)])]⟩
    [(0, some ⟨[(1, (⟨97, 109⟩, .primary_t)), (2, (⟨110, 122⟩, .nothing_t))]⟩),
     (1, some ⟨[(1, (⟨97, 109⟩, .nothing_t)), (2, (⟨110, 122⟩, .primary_t))]⟩)]
    regions_unique_example
  exact ⟨regions_unique_example, by decide, same_cards_up_to_order_example,
    h.2.2 _ same_cards_up_to_order_example⟩

/-! ## The regions of `compile_blueprint` -/

/-- For a token short enough that `(i + 1) * 26` fits in an `unsigned`, the two bounds are
the exact quotients. -/
theorem region_of_position_eq (i n : Nat) (hi : i < n) (hn : 26 * n < 4294967296) :
    region_of_position i n = ⟨97 + 26 * i / n, 97 + 26 * (i + 1) / n - 1⟩ := by
  have h1 : i * 26 % 4294967296 = 26 * i := by
    rw [Nat.mod_eq_of_lt (by omega)]; ring
  have h2 : (i + 1) % 4294967296 * 26 % 4294967296 = 26 * (i + 1) := by
    rw [Nat.mod_eq_of_lt (by omega), Nat.mod_eq_of_lt (by omega)]; ring
  have h3 : 26 * i / n ≤ 26 := by
    apply Nat.div_le_of_le_mul; nlinarith
  have h4 : 26 * (i + 1) / n ≤ 26 := by
    apply Nat.div_le_of_le_mul; nlinarith
  simp only [region_of_position, h1, h2]
  generalize 26 * i / n = d at *
  generalize 26 * (i + 1) / n = e at *
  congr 1 <;> omega

/-- Membership of a key in region `i`, without division. -/
theorem region_contains_iff (i n k : Nat) (hi : i < n) (hn : 26 * n < 4294967296) :
    (region_of_position i n).contains k ↔
      97 ≤ k ∧ 26 * i < (k - 96) * n ∧ (k - 96) * n ≤ 26 * (i + 1) := by
  have hpos : 0 < n := by omega
  rw [region_of_position_eq i n hi hn]
  simp only [region_t.contains]
  have e1 : 26 * i / n < k - 96 ↔ 26 * i < (k - 96) * n := Nat.div_lt_iff_lt_mul hpos
  have e2 : k - 96 ≤ 26 * (i + 1) / n ↔ (k - 96) * n ≤ 26 * (i + 1) :=
    Nat.le_div_iff_mul_le hpos
  rw [← e1, ← e2]
  generalize 26 * i / n = d
  generalize 26 * (i + 1) / n = e
  omega

theorem region_keys_in_range (i n k : Nat) (hi : i < n) (hn : 26 * n < 4294967296)
    (h : (region_of_position i n).contains k) : 97 ≤ k ∧ k ≤ 122 := by
  obtain ⟨h1, -, h3⟩ := (region_contains_iff i n k hi hn).1 h
  refine ⟨h1, ?_⟩
  by_contra hc
  have : 27 * n ≤ (k - 96) * n := Nat.mul_le_mul_right n (by omega)
  omega

theorem region_unique_of_contains (i j n k : Nat) (hi : i < n) (hj : j < n)
    (hn : 26 * n < 4294967296) (h1 : (region_of_position i n).contains k)
    (h2 : (region_of_position j n).contains k) : i = j := by
  obtain ⟨-, a1, a2⟩ := (region_contains_iff i n k hi hn).1 h1
  obtain ⟨-, b1, b2⟩ := (region_contains_iff j n k hj hn).1 h2
  generalize (k - 96) * n = m at *
  omega

theorem region_exists_of_key (n k : Nat) (h1 : 1 ≤ n) (hn : 26 * n < 4294967296)
    (hk1 : 97 ≤ k) (hk2 : k ≤ 122) :
    ∃ i, i < n ∧ (region_of_position i n).contains k := by
  have hm1 : 1 * n ≤ (k - 96) * n := Nat.mul_le_mul_right n (by omega)
  have hm2 : (k - 96) * n ≤ 26 * n := Nat.mul_le_mul_right n (by omega)
  have hi : ((k - 96) * n - 1) / 26 < n := by
    generalize (k - 96) * n = m at *
    omega
  refine ⟨((k - 96) * n - 1) / 26, hi, ?_⟩
  rw [region_contains_iff _ n k hi hn]
  generalize (k - 96) * n = m at *
  omega

/-- C5, refuted as stated: for a token of 165191050 characters the product
`(i + 1) * 26` of the last position no longer fits in an `unsigned`; the last region is
built as `['z', 'a' - 1]`, and the key `'z'` lies in none of the regions. -/
theorem region_tiling_counterexample :
    1 ≤ 165191050 ∧ region_of_position 165191049 165191050 = ⟨122, 96⟩ ∧
      ¬ ∃ i, i < 165191050 ∧ (region_of_position i 165191050).contains 122 := by
  refine ⟨by decide, by decide, ?_⟩
  rintro ⟨i, -, -, h2⟩
  simp only [region_of_position] at h2
  have hx : (i + 1) % 4294967296 * 26 % 4294967296 < 4294967296 := Nat.mod_lt _ (by norm_num)
  generalize (i + 1) % 4294967296 * 26 % 4294967296 = x at hx h2
  omega

/-- C5, amended: for every token of length `n` with `1 ≤ n` and `26 * n < 2^32`, the `n`
regions that `compile_blueprint` generates are
`['a' + floor(26*i/n), 'a' + floor(26*(i+1)/n) - 1]` for `i = 0..n-1`, and they partition
the keyspace `'a'..'z'`: every key in `'a'..'z'` lies in exactly one of them, and no
region contains a key outside `'a'..'z'`. -/
theorem region_tiling (n : Nat) (h1 : 1 ≤ n) (hn : 26 * n < 4294967296) :
    (∀ i, i < n →
      region_of_position i n = ⟨97 + 26 * i / n, 97 + 26 * (i + 1) / n - 1⟩) ∧
    (∀ k, 97 ≤ k → k ≤ 122 → ∃! i, i < n ∧ (region_of_position i n).contains k) ∧
    (∀ i k, i < n → (region_of_position i n).contains k → 97 ≤ k ∧ k ≤ 122) := by
  refine ⟨fun i hi => region_of_position_eq i n hi hn, ?_, ?_⟩
  · intro k hk1 hk2
    obtain ⟨i, hi, hc⟩ := region_exists_of_key n k h1 hn hk1 hk2
    exact ⟨i, ⟨hi, hc⟩, fun j hj => region_unique_of_contains j i n k hj.1 hi hn hj.2 hc⟩
  · intro i k hi hc
    exact region_keys_in_range i n k hi hn hc

/-- Witness for the amended C5: the two regions of a token of length 2. -/
theorem region_tiling_witness :
    (1 ≤ 2 ∧ 26 * 2 < 4294967296) ∧
    ((∀ i, i < 2 →
      region_of_position i 2 = ⟨97 + 26 * i / 2, 97 + 26 * (i + 1) / 2 - 1⟩) ∧
    (∀ k, 97 ≤ k → k ≤ 122 → ∃! i, i < 2 ∧ (region_of_position i 2).contains k) ∧
    (∀ i k, i < 2 → (region_of_position i 2).contains k → 97 ≤ k ∧ k ≤ 122)) :=
  ⟨by decide, region_tiling 2 (by decide) (by decide)⟩

/-- C10 (non-empty regions exactly up to 26 shards): all `n` regions generated for a token
of length `n` are non-empty (first character at most last character) if and only if
`n ≤ 26`; for `n = 27` region 0 is `['a', 'a' - 1]`, which is empty. -/
theorem regions_nonempty_iff (n : Nat) :
    ((∀ i, i < n → (region_of_position i n).first ≤ (region_of_position i n).last) ↔ n ≤ 26) ∧
    region_of_position 0 27 = ⟨97, 96⟩ ∧
    ¬ ((region_of_position 0 27).first ≤ (region_of_position 0 27).last) := by
  refine ⟨⟨?_, ?_⟩, by decide, by decide⟩
  · intro h
    by_contra hc
    have h0 := h 0 (by omega)
    simp only [region_of_position] at h0
    have : 26 / n = 0 := Nat.div_eq_of_lt (by omega)
    norm_num [this] at h0
  · intro hn i hi
    rw [region_of_position_eq i n hi (by omega)]
    simp only
    have hpos : 0 < n := by omega
    have : 26 * i / n + 1 ≤ 26 * (i + 1) / n := by
      rw [Nat.le_div_iff_mul_le hpos]
      have := Nat.div_mul_le_self (26 * i) n
      nlinarith
    omega

/-! ## What `compile_blueprint` builds -/

theorem add_peer_of_fresh (pre : List (peer_id_t × region_to_role_map_t)) (id : peer_id_t)
    (h : ∀ e ∈ pre, e.1 ≠ id) :
    blueprint_t.add_peer ⟨pre⟩ id = ⟨pre ++ [(id, [])]⟩ := by
  have hany : pre.any (fun e => decide (e.1 = id)) = false := by
    rw [List.any_eq_false]
    intro e he
    simpa using h e he
  simp [blueprint_t.add_peer, hany]

theorem add_role_last (pre : List (peer_id_t × region_to_role_map_t)) (id : peer_id_t)
    (acc : region_to_role_map_t) (region : region_t) (role : role_t)
    (h : ∀ e ∈ pre, e.1 ≠ id) :
    blueprint_t.add_role ⟨pre ++ [(id, acc)]⟩ id region role =
      ⟨pre ++ [(id, insert_role acc region role)]⟩ := by
  have hany : (pre ++ [(id, acc)]).any (fun e => decide (e.1 = id)) = true := by
    rw [List.any_eq_true]
    exact ⟨(id, acc), by simp, by simp⟩
  have hmap : pre.map (fun e => if e.1 = id then (e.1, insert_role e.2 region role) else e)
      = pre := by
    conv_rhs => rw [← List.map_id pre]
    apply List.map_congr_left
    intro e he
    simp [h e he]
  simp only [blueprint_t.add_role, hany, if_true, List.map_append, hmap]
  simp

theorem compile_token_eq (id : peer_id_t) (size : Nat)
    (pre : List (peer_id_t × region_to_role_map_t)) (h : ∀ e ∈ pre, e.1 ≠ id)
    (cs : List Char) (i : Nat) (acc : region_to_role_map_t) :
    compile_token id size cs i ⟨pre ++ [(id, acc)]⟩ =
      (token_roles size cs i acc).map (fun m => ⟨pre ++ [(id, m)]⟩) := by
  induction cs generalizing i acc with
  | nil => simp [compile_token, token_roles]
  | cons c rest ih =>
    simp only [compile_token, token_roles]
    cases role_of_char c with
    | none => rfl
    | some role =>
      simp only [add_role_last pre id acc _ role h]
      exact ih (i + 1) _

theorem compile_tokens_eq (g : test_cluster_group_t) (hg : g.test_clusters.Nodup)
    (toks : List (List Char)) (k : Nat) (pre : List (peer_id_t × region_to_role_map_t))
    (h : ∀ e ∈ pre, ∀ j, k ≤ j → g.test_clusters[j]? ≠ some e.1) :
    compile_tokens g toks k ⟨pre⟩ = (token_entries g toks k).map (fun es => ⟨pre ++ es⟩) := by
  induction toks generalizing k pre with
  | nil => simp [compile_tokens, token_entries]
  | cons tok rest ih =>
    simp only [compile_tokens, token_entries]
    split_ifs with hsz
    · rfl
    · cases hid : g.get_peer_id k with
      | none => rfl
      | some id =>
        have hid' : g.test_clusters[k]? = some id := hid
        have hfresh : ∀ e ∈ pre, e.1 ≠ id := by
          intro e he heq
          exact h e he k (le_refl k) (by rw [hid', heq])
        simp only [add_peer_of_fresh pre id hfresh, compile_token_eq id tok.length pre hfresh]
        cases hm : token_roles tok.length tok 0 [] with
        | none => rfl
        | some m =>
          simp only [Option.map_some']
          have hpre : ∀ e ∈ pre ++ [(id, m)], ∀ j, k + 1 ≤ j →
              g.test_clusters[j]? ≠ some e.1 := by
            intro e he j hj
            rcases List.mem_append.1 he with he | he
            · exact h e he j (by omega)
            · simp only [List.mem_singleton] at he
              subst he
              intro hj'
              have hk : k < g.test_clusters.length := (List.getElem?_eq_some.1 hid').1
              have := List.getElem?_inj hk hg (hid'.trans hj'.symm)
              omega
          rw [ih (k + 1) (pre ++ [(id, m)]) hpre]
          cases token_entries g rest (k + 1) with
          | none => rfl
          | some es => simp

theorem compile_blueprint_eq (g : test_cluster_group_t) (hg : g.test_clusters.Nodup)
    (bp : String) :
    g.compile_blueprint bp = (token_entries g (tokenize bp.data) 0).map blueprint_t.mk := by
  unfold test_cluster_group_t.compile_blueprint
  rw [compile_tokens_eq g hg _ 0 [] (by simp)]
  cases token_entries g (tokenize bp.data) 0 <;> simp

theorem insert_role_mem (acc : region_to_role_map_t) (r r' : region_t) (role role' : role_t) :
    (r', role') ∈ insert_role acc r role ↔
      (r', role') ∈ acc ∨ ((∀ e ∈ acc, e.1 ≠ r) ∧ r' = r ∧ role' = role) := by
  unfold insert_role
  by_cases hany : acc.any (fun e => decide (e.1 = r)) = true
  · simp only [hany, if_true]
    constructor
    · exact Or.inl
    · rintro (h | ⟨h, -, -⟩)
      · exact h
      · obtain ⟨e, he, hd⟩ := List.any_eq_true.1 hany
        exact absurd (by simpa using hd) (h e he)
  · simp only [hany, Bool.false_eq_true, if_false, List.mem_append, List.mem_singleton,
      Prod.mk.injEq]
    have hfresh : ∀ e ∈ acc, e.1 ≠ r := by
      intro e he heq
      exact hany (List.any_eq_true.2 ⟨e, he, by simpa using heq⟩)
    constructor
    · rintro (h | h)
      · exact Or.inl h
      · exact Or.inr ⟨hfresh, h⟩
    · rintro (h | ⟨-, h⟩)
      · exact Or.inl h
      · exact Or.inr h

theorem insert_role_fresh (acc : region_to_role_map_t) (r r' : region_t) (role : role_t) :
    (∀ e ∈ insert_role acc r role, e.1 ≠ r') ↔ (∀ e ∈ acc, e.1 ≠ r') ∧ r ≠ r' := by
  constructor
  · intro h
    have h1 : ∀ e ∈ acc, e.1 ≠ r' :=
      fun e he => h e ((insert_role_mem acc r e.1 role e.2).2 (Or.inl he))
    refine ⟨h1, fun heq => ?_⟩
    by_cases hf : ∀ e ∈ acc, e.1 ≠ r
    · exact h (r, role) ((insert_role_mem acc r r role role).2 (Or.inr ⟨hf, rfl, rfl⟩)) heq
    · push_neg at hf
      obtain ⟨e, he, hr⟩ := hf
      exact h1 e he (hr.trans heq)
  · rintro ⟨h1, h2⟩ e he
    obtain ⟨e1, e2⟩ := e
    rcases (insert_role_mem acc r e1 role e2).1 he with h | ⟨-, rfl, -⟩
    · exact h1 _ h
    · exact h2

/-- The mapping that the inner loop builds from `acc`: a binding is either one of `acc`,
or comes from the first position whose region it carries, when `acc` does not bind that
region. -/
theorem token_roles_spec (size : Nat) (cs : List Char) (i : Nat) (acc : region_to_role_map_t)
    (hv : ∀ c ∈ cs, role_of_char c ≠ none) :
    ∃ m, token_roles size cs i acc = some m ∧
      ∀ r role, (r, role) ∈ m ↔
        (r, role) ∈ acc ∨ ((∀ e ∈ acc, e.1 ≠ r) ∧
          ∃ j c, cs[j]? = some c ∧ role_of_char c = some role ∧
            r = region_of_position (i + j) size ∧
            ∀ j', j' < j → region_of_position (i + j') size ≠ r) := by
  induction cs generalizing i acc with
  | nil =>
    refine ⟨acc, rfl, fun r role => ?_⟩
    simp
  | cons c rest ih =>
    have hc : role_of_char c ≠ none := hv c (List.mem_cons_self _ _)
    obtain ⟨ro, hro⟩ := Option.ne_none_iff_exists'.1 hc
    obtain ⟨m, hm, hspec⟩ := ih (i + 1) (insert_role acc (region_of_position i size) ro)
      (fun c' hc' => hv c' (List.mem_cons_of_mem _ hc'))
    refine ⟨m, by simp only [token_roles, hro, hm], fun r role => ?_⟩
    rw [hspec r role, insert_role_mem, insert_role_fresh]
    constructor
    · rintro ((h | ⟨hf, rfl, rfl⟩) | ⟨⟨hf, hne⟩, j, c', hj, hrc, hr, hmin⟩)
      · exact Or.inl h
      · exact Or.inr ⟨hf, 0, c, by simp, hro, by simp, by intro j' hj'; omega⟩
      · refine Or.inr ⟨hf, j + 1, c', by simpa using hj, hrc, ?_, ?_⟩
        · rw [hr]; congr 1; omega
        · intro j' hj'
          cases j' with
          | zero => simpa using hne
          | succ j'' =>
            have := hmin j'' (by omega)
            rwa [show i + (j'' + 1) = i + 1 + j'' by omega]
    · rintro (h | ⟨hf, j, c', hj, hrc, hr, hmin⟩)
      · exact Or.inl (Or.inl h)
      · cases j with
        | zero =>
          simp only [List.getElem?_cons_zero, Option.some.injEq] at hj
          subst hj
          rw [hro] at hrc
          simp only [Option.some.injEq] at hrc
          subst hrc
          have hr' : r = region_of_position i size := by simpa using hr
          subst hr'
          exact Or.inl (Or.inr ⟨hf, rfl, rfl⟩)
        | succ j0 =>
          refine Or.inr ⟨⟨hf, ?_⟩, j0, c', by simpa using hj, hrc, ?_, ?_⟩
          · simpa using hmin 0 (by omega)
          · rw [hr]; congr 1; omega
          · intro j' hj'
            have := hmin (j' + 1) (by omega)
            rwa [show i + (j' + 1) = i + 1 + j' by omega] at this

/-- The bindings that the outer loop adds: one per token, for the machines from index
`k` on, each with the mapping of its token. -/
theorem token_entries_spec (g : test_cluster_group_t) (toks : List (List Char)) (k : Nat)
    (hv : ∀ tok ∈ toks, tok.length < 4294967296 ∧ ∀ c ∈ tok, role_of_char c ≠ none)
    (hk : k + toks.length ≤ g.test_clusters.length) :
    ∃ es, token_entries g toks k = some es ∧
      es.map Prod.fst = (g.test_clusters.drop k).take toks.length ∧
      ∀ p roles, (p, roles) ∈ es ↔
        ∃ j tok, toks[j]? = some tok ∧ g.test_clusters[k + j]? = some p ∧
          token_roles tok.length tok 0 [] = some roles := by
  induction toks generalizing k with
  | nil => exact ⟨[], rfl, by simp, by simp⟩
  | cons tok rest ih =>
    obtain ⟨hsz, hchars⟩ := hv tok (List.mem_cons_self _ _)
    simp only [List.length_cons] at hk
    have hklt : k < g.test_clusters.length := by omega
    have hid : g.get_peer_id k = some g.test_clusters[k] := by
      simp [test_cluster_group_t.get_peer_id, List.getElem?_eq_getElem hklt]
    obtain ⟨m, hm, -⟩ := token_roles_spec tok.length tok 0 [] hchars
    obtain ⟨es, hes, hfst, hspec⟩ := ih (k + 1)
      (fun t ht => hv t (List.mem_cons_of_mem _ ht)) (by omega)
    refine ⟨(g.test_clusters[k], m) :: es, ?_, ?_, ?_⟩
    · simp only [token_entries, if_neg (not_le.2 hsz), hid, hm, hes]
    · simp only [List.map_cons, hfst, List.length_cons]
      rw [List.drop_eq_getElem_cons hklt, List.take_succ_cons]
    · intro p roles
      simp only [List.mem_cons, Prod.mk.injEq, hspec]
      constructor
      · rintro (⟨rfl, rfl⟩ | ⟨j, t, hj, hp, hr⟩)
        · exact ⟨0, tok, by simp, by simp [List.getElem?_eq_getElem hklt], hm⟩
        · exact ⟨j + 1, t, by simpa using hj,
            by rwa [show k + (j + 1) = k + 1 + j by omega], hr⟩
      · rintro ⟨j, t, hj, hp, hr⟩
        cases j with
        | zero =>
          simp only [List.getElem?_cons_zero, Option.some.injEq] at hj
          subst hj
          simp only [Nat.add_zero, List.getElem?_eq_getElem hklt, Option.some.injEq] at hp
          rw [hm] at hr
          simp only [Option.some.injEq] at hr
          exact Or.inl ⟨hp.symm, hr.symm⟩
        | succ j0 =>
          exact Or.inr ⟨j0, t, by simpa using hj,
            by rwa [show k + (j0 + 1) = k + 1 + j0 by omega] at hp, hr⟩

theorem role_of_char_primary (c : Char) (h : role_of_char c = some .role_primary) :
    c = 'p' := by
  unfold role_of_char at h
  split at h <;> simp_all

theorem role_of_char_valid (c : Char) (h : c = 'p' ∨ c = 's' ∨ c = 'n') :
    role_of_char c ≠ none := by
  rcases h with rfl | rfl | rfl <;> decide

theorem filter_length_one {α : Type} (P : α → Bool) (l : List α)
    (h : (l.filter P).length = 1) :
    ∃ (j : Nat) (a : α), l[j]? = some a ∧ P a = true ∧
      ∀ (j' : Nat) (a' : α), l[j']? = some a' → P a' = true → j' = j := by
  induction l with
  | nil => simp at h
  | cons x rest ih =>
    by_cases hx : P x = true
    · rw [List.filter_cons_of_pos hx] at h
      simp only [List.length_cons, add_left_eq_self, List.length_eq_zero] at h
      refine ⟨0, x, by simp, hx, ?_⟩
      intro j' a' hj' ha'
      cases j' with
      | zero => rfl
      | succ j'' =>
        simp only [List.getElem?_cons_succ] at hj'
        have hm : a' ∈ rest.filter P :=
          List.mem_filter.2 ⟨List.mem_iff_getElem?.2 ⟨j'', hj'⟩, ha'⟩
        rw [h] at hm
        cases hm
    · rw [List.filter_cons_of_neg hx] at h
      obtain ⟨j, a, hj, ha, huniq⟩ := ih h
      refine ⟨j + 1, a, by simpa using hj, ha, ?_⟩
      intro j' a' hj' ha'
      cases j' with
      | zero =>
        simp only [List.getElem?_cons_zero, Option.some.injEq] at hj'
        subst hj'
        exact absurd ha' hx
      | succ j'' =>
        simp only [List.getElem?_cons_succ] at hj'
        have := huniq j'' a' hj' ha'
        omega

/-- In a token of at most 52 characters no two positions generate the same region. -/
theorem region_ne_of_lt (j i n : Nat) (hji : j < i) (hi : i < n) (hn : n ≤ 52) :
    region_of_position j n ≠ region_of_position i n := by
  intro heq
  rw [region_of_position_eq j n (by omega) (by omega),
    region_of_position_eq i n hi (by omega)] at heq
  simp only [region_t.mk.injEq] at heq
  obtain ⟨h1, h2⟩ := heq
  have hpos : 0 < n := by omega
  have hmono1 : 26 * (j + 1) / n ≤ 26 * i / n := Nat.div_le_div_right (by omega)
  have hmono2 : 26 * j / n ≤ 26 * (j + 1) / n := Nat.div_le_div_right (by omega)
  have hlow := Nat.div_mul_le_self (26 * j) n
  have hup := Nat.lt_div_mul_add (a := 26 * (i + 1)) hpos
  have hq : 26 * (i + 1) / n = 26 * j / n := by
    generalize 26 * (i + 1) / n = d at *
    generalize 26 * (j + 1) / n = b at *
    generalize 26 * j / n = a at *
    generalize 26 * i / n = c at *
    omega
  rw [hq] at hup
  generalize 26 * j / n * n = m at hlow hup
  omega

/-! ## Token-to-peer and character-to-role mapping -/

set_option maxRecDepth 100000 in
/-- C7, refuted as stated: in the token `"pn"` followed by 51 more `'n'` (53 characters)
positions 0 and 1 both generate the region `['a', 'a' - 1]`; the mapping of peer 0 binds
this region to the primary role of position 0, and the role `role_nothing` that the
character `'n'` at position 1 calls for is not recorded. -/
theorem compile_blueprint_mapping_counterexample :
    tokenize "pnnnnnnnnnnnnnnnnnnnnnnnnnnnnnnnnnnnnnnnnnnnnnnnnnnnn".data =
        ["pnnnnnnnnnnnnnnnnnnnnnnnnnnnnnnnnnnnnnnnnnnnnnnnnnnnn".data] ∧
      "pnnnnnnnnnnnnnnnnnnnnnnnnnnnnnnnnnnnnnnnnnnnnnnnnnnnn".data.length = 53 ∧
      "pnnnnnnnnnnnnnnnnnnnnnnnnnnnnnnnnnnnnnnnnnnnnnnnnnnnn".data[1]? = some 'n' ∧
      region_of_position 0 53 = ⟨97, 96⟩ ∧ region_of_position 1 53 = ⟨97, 96⟩ ∧
      ∃ blueprint,
        (test_cluster_group_t.mk [0]).compile_blueprint
          "pnnnnnnnnnnnnnnnnnnnnnnnnnnnnnnnnnnnnnnnnnnnnnnnnnnnn" = some blueprint ∧
        ∀ roles, (0, roles) ∈ blueprint.peers_roles →
          (region_of_position 1 53, role_t.role_nothing) ∉ roles := by
  refine ⟨by decide, by decide, by decide, by decide, by decide, ?_⟩
  refine ⟨⟨[(0, [(⟨97, 96⟩, .role_primary), (⟨97, 97⟩, .role_nothing),
    (⟨98, 97⟩, .role_nothing), (⟨98, 98⟩, .role_nothing), (⟨99, 98⟩, .role_nothing),
    (⟨99, 99⟩, .role_nothing), (⟨100, 99⟩, .role_nothing), (⟨100, 100⟩, .role_nothing),
    (⟨101, 100⟩, .role_nothing), (⟨101, 101⟩, .role_nothing), (⟨102, 101⟩, .role_nothing),
    (⟨102, 102⟩, .role_nothing), (⟨103, 102⟩, .role_nothing), (⟨103, 103⟩, .role_nothing),
    (⟨104, 103⟩, .role_nothing), (⟨104, 104⟩, .role_nothing), (⟨105, 104⟩, .role_nothing),
    (⟨105, 105⟩, .role_nothing), (⟨106, 105⟩, .role_nothing), (⟨106, 106⟩, .role_nothing),
    (⟨107, 106⟩, .role_nothing), (⟨107, 107⟩, .role_nothing), (⟨108, 107⟩, .role_nothing),
    (⟨108, 108⟩, .role_nothing), (⟨109, 108⟩, .role_nothing), (⟨109, 109⟩, .role_nothing),
    (⟨110, 109⟩, .role_nothing), (⟨110, 110⟩, .role_nothing), (⟨111, 110⟩, .role_nothing),
    (⟨111, 111⟩, .role_nothing), (⟨112, 111⟩, .role_nothing), (⟨112, 112⟩, .role_nothing),
    (⟨113, 112⟩, .role_nothing), (⟨113, 113⟩, .role_nothing), (⟨114, 113⟩, .role_nothing),
    (⟨114, 114⟩, .role_nothing), (⟨115, 114⟩, .role_nothing), (⟨115, 115⟩, .role_nothing),
    (⟨116, 115⟩, .role_nothing), (⟨116, 116⟩, .role_nothing), (⟨117, 116⟩, .role_nothing),
    (⟨117, 117⟩, .role_nothing), (⟨118, 117⟩, .role_nothing), (⟨118, 118⟩, .role_nothing),
    (⟨119, 118⟩, .role_nothing), (⟨119, 119⟩, .role_nothing), (⟨120, 119⟩, .role_nothing),
    (⟨120, 120⟩, .role_nothing), (⟨121, 120⟩, .role_nothing), (⟨121, 121⟩, .role_nothing),
    (⟨122, 121⟩, .role_nothing), (⟨122, 122⟩, .role_nothing)])]⟩, by decide, ?_⟩
  intro roles hm
  simp only [List.mem_singleton, Prod.mk.injEq, true_and] at hm
  subst hm
  decide

/-- What `compile_blueprint` returns for tokens over `'p'`, `'s'`, `'n'` on pairwise
distinct peers: one binding per token. -/
theorem compile_blueprint_entries (g : test_cluster_group_t) (bp : String)
    (hg : g.test_clusters.Nodup)
    (hchars : ∀ tok ∈ tokenize bp.data, ∀ c ∈ tok, c = 'p' ∨ c = 's' ∨ c = 'n')
    (hsize : ∀ tok ∈ tokenize bp.data, tok.length < 4294967296)
    (hlen : (tokenize bp.data).length ≤ g.test_clusters.length) :
    ∃ blueprint, g.compile_blueprint bp = some blueprint ∧
      blueprint.peers_roles.map Prod.fst = g.test_clusters.take (tokenize bp.data).length ∧
      ∀ p roles, (p, roles) ∈ blueprint.peers_roles ↔
        ∃ (j : Nat) (tok : List Char),
          (tokenize bp.data)[j]? = some tok ∧ g.test_clusters[j]? = some p ∧
          token_roles tok.length tok 0 [] = some roles := by
  obtain ⟨es, hes, hfst, hspec⟩ := token_entries_spec g (tokenize bp.data) 0
    (fun tok ht => ⟨hsize tok ht, fun c hc => role_of_char_valid c (hchars tok ht c hc)⟩)
    (by omega)
  refine ⟨⟨es⟩, by rw [compile_blueprint_eq g hg, hes]; rfl, by simpa using hfst, ?_⟩
  intro p roles
  simpa using hspec p roles

/-- C7, amended: for every string whose tokens consist of `'p'`, `'s'`, `'n'` and are
shorter than 2^32, with no more tokens than machines and pairwise distinct peer ids,
`compile_blueprint` returns a blueprint whose peers are exactly the peers with indices
`0..(number of tokens - 1)`, and in which the peer with index `k` is assigned, for each
position `i` of the `k`-th token whose region is generated by no other position of that
token (every position, when the token has at most 26 characters), `role_primary` /
`role_secondary` / `role_nothing` according to whether the character at `i` is `'p'` /
`'s'` / `'n'`, on the `i`-th of the regions of the token. -/
theorem compile_blueprint_mapping (g : test_cluster_group_t) (bp : String)
    (hg : g.test_clusters.Nodup)
    (hchars : ∀ tok ∈ tokenize bp.data, ∀ c ∈ tok, c = 'p' ∨ c = 's' ∨ c = 'n')
    (hsize : ∀ tok ∈ tokenize bp.data, tok.length < 4294967296)
    (hlen : (tokenize bp.data).length ≤ g.test_clusters.length) :
    ∃ blueprint, g.compile_blueprint bp = some blueprint ∧
      blueprint.peers_roles.map Prod.fst = g.test_clusters.take (tokenize bp.data).length ∧
      ∀ (k : Nat) (tok : List Char) (id : peer_id_t),
        (tokenize bp.data)[k]? = some tok → g.test_clusters[k]? = some id →
        ∃ roles, (id, roles) ∈ blueprint.peers_roles ∧
          ∀ (i : Nat) (c : Char), tok[i]? = some c →
            (tok.length ≤ 26 ∨ ∀ j, j < tok.length → j ≠ i →
              region_of_position j tok.length ≠ region_of_position i tok.length) →
            (c = 'p' → (region_of_position i tok.length, role_t.role_primary) ∈ roles) ∧
            (c = 's' → (region_of_position i tok.length, role_t.role_secondary) ∈ roles) ∧
            (c = 'n' → (region_of_position i tok.length, role_t.role_nothing) ∈ roles) := by
  obtain ⟨blueprint, hbp, hfst, hspec⟩ := compile_blueprint_entries g bp hg hchars hsize hlen
  refine ⟨blueprint, hbp, hfst, ?_⟩
  intro k tok id hk hid
  have htok : tok ∈ tokenize bp.data := List.mem_iff_getElem?.2 ⟨k, hk⟩
  obtain ⟨m, hm, hroles⟩ := token_roles_spec tok.length tok 0 []
    (fun c hc => role_of_char_valid c (hchars tok htok c hc))
  refine ⟨m, (hspec id m).2 ⟨k, tok, hk, hid, hm⟩, ?_⟩
  intro i c hi hfresh
  have hilt : i < tok.length := (List.getElem?_eq_some.1 hi).1
  have hfresh' : ∀ j, j < i →
      region_of_position (0 + j) tok.length ≠ region_of_position i tok.length := by
    intro j hj
    rw [Nat.zero_add]
    rcases hfresh with h26 | hf
    · exact region_ne_of_lt j i tok.length hj hilt (by omega)
    · exact hf j (by omega) (by omega)
  have key : ∀ role, role_of_char c = some role →
      (region_of_position i tok.length, role) ∈ m := by
    intro role hrole
    refine (hroles _ role).2 (Or.inr ⟨by simp, i, c, hi, hrole, by simp, hfresh'⟩)
  refine ⟨?_, ?_, ?_⟩
  · rintro rfl; exact key _ rfl
  · rintro rfl; exact key _ rfl
  · rintro rfl; exact key _ rfl

/-- Witness for the amended C7: `"p,n"` on two machines with peer ids 10 and 20 makes
node 0 primary and node 1 nothing for `'a'..'z'`. -/
theorem compile_blueprint_mapping_witness :
    (test_cluster_group_t.mk [10, 20]).compile_blueprint "p,n" =
        some ⟨[(10, [(⟨97, 122⟩, .role_primary)]), (20, [(⟨97, 122⟩, .role_nothing)])]⟩ ∧
    ∃ blueprint, (test_cluster_group_t.mk [10, 20]).compile_blueprint "p,n" = some blueprint ∧
      blueprint.peers_roles.map Prod.fst =
        (test_cluster_group_t.mk [10, 20]).test_clusters.take (tokenize "p,n".data).length ∧
      ∀ (k : Nat) (tok : List Char) (id : peer_id_t),
        (tokenize "p,n".data)[k]? = some tok →
        (test_cluster_group_t.mk [10, 20]).test_clusters[k]? = some id →
        ∃ roles, (id, roles) ∈ blueprint.peers_roles ∧
          ∀ (i : Nat) (c : Char), tok[i]? = some c →
            (tok.length ≤ 26 ∨ ∀ j, j < tok.length → j ≠ i →
              region_of_position j tok.length ≠ region_of_position i tok.length) →
            (c = 'p' → (region_of_position i tok.length, role_t.role_primary) ∈ roles) ∧
            (c = 's' → (region_of_position i tok.length, role_t.role_secondary) ∈ roles) ∧
            (c = 'n' → (region_of_position i tok.length, role_t.role_nothing) ∈ roles) :=
  ⟨by decide,
   compile_blueprint_mapping ⟨[10, 20]⟩ "p,n" (by decide) (by decide) (by decide) (by decide)⟩

/-! ## Primaries of a compiled blueprint -/

/-- For tokens of one length `n` with `26 * n < 2^32` in which every position holds `'p'`
in exactly one token: the compiled blueprint has, for each key of `'a'..'z'`, one peer
`p0` that is primary on the region `i0` containing the key; every assigned region that
contains the key is that region, only `p0` is primary on it, and every peer of the
blueprint has a role on it. -/
theorem compiled_primary (g : test_cluster_group_t) (bp : String) (n : Nat)
    (hg : g.test_clusters.Nodup)
    (hlen : (tokenize bp.data).length ≤ g.test_clusters.length)
    (hn1 : 1 ≤ n) (hn : 26 * n < 4294967296)
    (htok : ∀ tok ∈ tokenize bp.data,
      tok.length = n ∧ ∀ c ∈ tok, c = 'p' ∨ c = 's' ∨ c = 'n')
    (hp : ∀ i, i < n →
      ((tokenize bp.data).filter (fun tok => tok[i]? = some 'p')).length = 1) :
    ∃ blueprint, g.compile_blueprint bp = some blueprint ∧
      ∀ k, 97 ≤ k → k ≤ 122 →
        ∃ p0 roles0 i0, i0 < n ∧ (p0, roles0) ∈ blueprint.peers_roles ∧
          (region_of_position i0 n, role_t.role_primary) ∈ roles0 ∧
          (region_of_position i0 n).contains k ∧
          (∀ p roles r role, (p, roles) ∈ blueprint.peers_roles → (r, role) ∈ roles →
            r.contains k →
            r = region_of_position i0 n ∧ (role = role_t.role_primary → p = p0)) ∧
          (∀ p roles, (p, roles) ∈ blueprint.peers_roles →
            ∃ role, (region_of_position i0 n, role) ∈ roles) := by
  obtain ⟨blueprint, hbp, -, hspec⟩ := compile_blueprint_entries g bp hg
    (fun tok ht => (htok tok ht).2) (fun tok ht => by rw [(htok tok ht).1]; omega) hlen
  refine ⟨blueprint, hbp, ?_⟩
  intro k hk1 hk2
  obtain ⟨i0, hi0, hc0⟩ := region_exists_of_key n k hn1 hn hk1 hk2
  obtain ⟨j0, tok0, hj0, hp0, huniq⟩ := filter_length_one _ _ (hp i0 hi0)
  have hp0' : tok0[i0]? = some 'p' := by simpa using hp0
  have htok0 : tok0 ∈ tokenize bp.data := List.mem_iff_getElem?.2 ⟨j0, hj0⟩
  have hlen0 : tok0.length = n := (htok tok0 htok0).1
  have hj0lt : j0 < g.test_clusters.length :=
    lt_of_lt_of_le (List.getElem?_eq_some.1 hj0).1 hlen
  obtain ⟨m0, hm0, hroles0⟩ := token_roles_spec tok0.length tok0 0 []
    (fun c hc => role_of_char_valid c ((htok tok0 htok0).2 c hc))
  rw [hlen0] at hm0 hroles0
  have hfresh : ∀ j', j' < i0 →
      region_of_position (0 + j') n ≠ region_of_position i0 n := by
    intro j' hj' heq
    rw [Nat.zero_add] at heq
    have := region_unique_of_contains j' i0 n k (by omega) hi0 hn (by rw [heq]; exact hc0) hc0
    omega
  refine ⟨g.test_clusters[j0], m0, i0, hi0, ?_, ?_, hc0, ?_, ?_⟩
  · exact (hspec _ m0).2 ⟨j0, tok0, hj0, List.getElem?_eq_getElem hj0lt, by rw [hlen0]; exact hm0⟩
  · exact (hroles0 _ _).2 (Or.inr ⟨by simp, i0, 'p', hp0', rfl, by simp, hfresh⟩)
  · intro p roles r role hmem hr hc
    obtain ⟨j, tok, hj, hpj, htr⟩ := (hspec p roles).1 hmem
    have htokm : tok ∈ tokenize bp.data := List.mem_iff_getElem?.2 ⟨j, hj⟩
    have hlenj : tok.length = n := (htok tok htokm).1
    obtain ⟨m, hm, hroles⟩ := token_roles_spec tok.length tok 0 []
      (fun c hc => role_of_char_valid c ((htok tok htokm).2 c hc))
    rw [htr] at hm
    simp only [Option.some.injEq] at hm
    subst hm
    rw [hlenj] at hroles
    rcases (hroles r role).1 hr with h | ⟨-, i, c, hi, hrc, hreq, -⟩
    · cases h
    · rw [Nat.zero_add] at hreq
      have hilt : i < n := by rw [← hlenj]; exact (List.getElem?_eq_some.1 hi).1
      have hii : i = i0 :=
        region_unique_of_contains i i0 n k hilt hi0 hn (by rw [← hreq]; exact hc) hc0
      subst hii
      refine ⟨hreq, ?_⟩
      rintro rfl
      have hcp : c = 'p' := role_of_char_primary c hrc
      subst hcp
      have hjj : j = j0 := huniq j tok hj (by simpa using hi)
      subst hjj
      rw [List.getElem?_eq_getElem hj0lt] at hpj
      simpa using hpj.symm
  · intro p roles hmem
    obtain ⟨j, tok, hj, -, htr⟩ := (hspec p roles).1 hmem
    have htokm : tok ∈ tokenize bp.data := List.mem_iff_getElem?.2 ⟨j, hj⟩
    have hlenj : tok.length = n := (htok tok htokm).1
    obtain ⟨m, hm, hroles⟩ := token_roles_spec tok.length tok 0 []
      (fun c hc => role_of_char_valid c ((htok tok htokm).2 c hc))
    rw [htr] at hm
    simp only [Option.some.injEq] at hm
    subst hm
    rw [hlenj] at hroles
    have hi0' : i0 < tok.length := by omega
    have hci : tok[i0]? = some tok[i0] := List.getElem?_eq_getElem hi0'
    obtain ⟨role, hrole⟩ := Option.ne_none_iff_exists'.1
      (role_of_char_valid tok[i0] ((htok tok htokm).2 _ (List.getElem_mem _)))
    exact ⟨role, (hroles _ role).2
      (Or.inr ⟨by simp, i0, tok[i0], hci, hrole, by simp, hfresh⟩)⟩

/-- C6, amended: for every blueprint string whose comma-separated tokens all have the
same length `n` with `1 ≤ n` and `26 * n < 2^32`, consist only of `'p'`, `'s'`, `'n'`, and
in which every position `i < n` holds `'p'` in exactly one token, on pairwise distinct
peer ids with no more tokens than machines, `compile_blueprint` returns a blueprint that
assigns `role_primary` on a region containing `k` to exactly one (peer, region) pair,
for every key `k` in `'a'..'z'`. -/
theorem compile_blueprint_unique_primary (g : test_cluster_group_t) (bp : String) (n : Nat)
    (hg : g.test_clusters.Nodup)
    (hlen : (tokenize bp.data).length ≤ g.test_clusters.length)
    (hn1 : 1 ≤ n) (hn : 26 * n < 4294967296)
    (htok : ∀ tok ∈ tokenize bp.data,
      tok.length = n ∧ ∀ c ∈ tok, c = 'p' ∨ c = 's' ∨ c = 'n')
    (hp : ∀ i, i < n →
      ((tokenize bp.data).filter (fun tok => tok[i]? = some 'p')).length = 1) :
    ∃ blueprint, g.compile_blueprint bp = some blueprint ∧
      ∀ k, 97 ≤ k → k ≤ 122 →
        ∃! pr : peer_id_t × region_t,
          (∃ roles, (pr.1, roles) ∈ blueprint.peers_roles ∧
            (pr.2, role_t.role_primary) ∈ roles) ∧ pr.2.contains k := by
  obtain ⟨blueprint, hbp, hkey⟩ := compiled_primary g bp n hg hlen hn1 hn htok hp
  refine ⟨blueprint, hbp, ?_⟩
  intro k hk1 hk2
  obtain ⟨p0, roles0, i0, -, hmem0, hr0, hc0, huniq, -⟩ := hkey k hk1 hk2
  refine ⟨(p0, region_of_position i0 n), ⟨⟨roles0, hmem0, hr0⟩, hc0⟩, ?_⟩
  rintro ⟨p, r⟩ ⟨⟨roles, hmem, hr⟩, hc⟩
  obtain ⟨h1, h2⟩ := huniq p roles r _ hmem hr hc
  simp only [Prod.mk.injEq]
  exact ⟨h2 rfl, h1⟩

/-- Witness for the amended C6: the blueprint of `"pn,np"` on peers 10 and 20. -/
theorem compile_blueprint_unique_primary_witness :
    ((test_cluster_group_t.mk [10, 20]).test_clusters.Nodup ∧ 26 * 2 < 4294967296) ∧
    ∃ blueprint, (test_cluster_group_t.mk [10, 20]).compile_blueprint "pn,np" = some blueprint ∧
      ∀ k, 97 ≤ k → k ≤ 122 →
        ∃! pr : peer_id_t × region_t,
          (∃ roles, (pr.1, roles) ∈ blueprint.peers_roles ∧
            (pr.2, role_t.role_primary) ∈ roles) ∧ pr.2.contains k :=
  ⟨by decide,
   compile_blueprint_unique_primary ⟨[10, 20]⟩ "pn,np" 2 (by decide) (by decide) (by decide)
    (by decide) (by decide) (by decide)⟩

theorem tokenize_from_no_comma (cur s : List Char) (h : ',' ∉ s) (hne : cur ++ s ≠ []) :
    tokenize_from cur s = [cur ++ s] := by
  induction s generalizing cur with
  | nil =>
    have : cur ≠ [] := by simpa using hne
    simp [tokenize_from, this]
  | cons c rest ih =>
    have hc : c ≠ ',' := fun e => h (by simp [e])
    have hrest : ',' ∉ rest := fun e => h (List.mem_cons_of_mem _ e)
    simp only [tokenize_from, if_neg hc]
    rw [ih (cur ++ [c]) hrest (by simp)]
    simp

/-- A string that is one token of `n` characters `'p'`, compiled on the single peer 0:
every region of the blueprint is the region of a position of the token. -/
theorem single_token_regions (n : Nat) (hn1 : 1 ≤ n) (hn : n < 4294967296) :
    tokenize (String.mk (List.replicate n 'p')).data = [List.replicate n 'p'] ∧
    ∃ blueprint,
      (test_cluster_group_t.mk [0]).compile_blueprint (String.mk (List.replicate n 'p'))
        = some blueprint ∧
      ∀ p roles r role, (p, roles) ∈ blueprint.peers_roles → (r, role) ∈ roles →
        ∃ i, i < n ∧ r = region_of_position i n := by
  have htk : tokenize (String.mk (List.replicate n 'p')).data = [List.replicate n 'p'] := by
    show tokenize_from [] (List.replicate n 'p') = [List.replicate n 'p']
    have hne : ([] : List Char) ++ List.replicate n 'p' ≠ [] := by
      intro h
      have := congrArg List.length h
      rw [List.nil_append, List.length_replicate] at this
      simp only [List.length_nil] at this
      omega
    have hcomma : ',' ∉ List.replicate n 'p' := by
      intro h
      exact absurd (List.eq_of_mem_replicate h) (by decide)
    rw [tokenize_from_no_comma [] _ hcomma hne, List.nil_append]
  refine ⟨htk, ?_⟩
  have hchars : ∀ tok ∈ tokenize (String.mk (List.replicate n 'p')).data,
      ∀ c ∈ tok, c = 'p' ∨ c = 's' ∨ c = 'n' := by
    intro tok ht c hc
    rw [htk, List.mem_singleton] at ht
    subst ht
    exact Or.inl (List.eq_of_mem_replicate hc)
  have hsize : ∀ tok ∈ tokenize (String.mk (List.replicate n 'p')).data,
      tok.length < 4294967296 := by
    intro tok ht
    rw [htk, List.mem_singleton] at ht
    subst ht
    rw [List.length_replicate]
    exact hn
  obtain ⟨blueprint, hbp, -, hspec⟩ := compile_blueprint_entries ⟨[0]⟩
    (String.mk (List.replicate n 'p')) (List.nodup_singleton 0) hchars hsize
    (by rw [htk]; exact le_refl 1)
  refine ⟨blueprint, hbp, ?_⟩
  intro p roles r role hmem hr
  obtain ⟨j, tok, hj, -, htr⟩ := (hspec p roles).1 hmem
  have htokm : tok ∈ tokenize (String.mk (List.replicate n 'p')).data :=
    List.mem_iff_getElem?.2 ⟨j, hj⟩
  obtain ⟨m, hm, hroles⟩ := token_roles_spec tok.length tok 0 []
    (fun c hc => role_of_char_valid c (hchars tok htokm c hc))
  rw [htr] at hm
  simp only [Option.some.injEq] at hm
  subst hm
  have hlen : tok.length = n := by
    rw [htk, List.mem_singleton] at htokm
    rw [htokm, List.length_replicate]
  rcases (hroles r role).1 hr with h | ⟨-, i, c, hi, -, hreq, -⟩
  · cases h
  · refine ⟨i, ?_, ?_⟩
    · rw [← hlen]; exact (List.getElem?_eq_some.1 hi).1
    · rw [hreq, Nat.zero_add, hlen]

/-- C6, refuted as stated: the string of 165191050 characters `'p'` is one token, over
`'p'`, `'s'`, `'n'`, with `'p'` at every position, compiled on the single peer 0; the
blueprint that `compile_blueprint` returns has no region containing the key `'z'`, so no
(peer, region) pair is primary for it. -/
theorem compile_blueprint_unique_primary_counterexample :
    tokenize (String.mk (List.replicate 165191050 'p')).data
        = [List.replicate 165191050 'p'] ∧
    (List.replicate 165191050 'p').length = 165191050 ∧
    (∀ c ∈ List.replicate 165191050 'p', c = 'p') ∧
    ∃ blueprint,
      (test_cluster_group_t.mk [0]).compile_blueprint
        (String.mk (List.replicate 165191050 'p')) = some blueprint ∧
      ¬ ∃ pr : peer_id_t × region_t,
          (∃ roles, (pr.1, roles) ∈ blueprint.peers_roles ∧
            (pr.2, role_t.role_primary) ∈ roles) ∧ pr.2.contains 122 := by
  obtain ⟨htk, blueprint, hbp, hreg⟩ :=
    single_token_regions 165191050 (by decide) (by decide)
  refine ⟨htk, List.length_replicate _ _, fun c hc => List.eq_of_mem_replicate hc,
    blueprint, hbp, ?_⟩
  rintro ⟨⟨p, r⟩, ⟨roles, hmem, hr⟩, -, h2⟩
  obtain ⟨i, -, hreq⟩ := hreg p roles r _ hmem hr
  simp only [hreq, region_of_position] at h2
  have hx : (i + 1) % 4294967296 * 26 % 4294967296 < 4294967296 := Nat.mod_lt _ (by norm_num)
  generalize (i + 1) % 4294967296 * 26 % 4294967296 = x at hx h2
  omega

/-! ## Primaries advertised under satisfaction -/

/-- C3, refuted as stated, in two ways.  The blueprint of `"pn,np"` on the two distinct
peers 0 and 1 is satisfied by a directory in which peer 0 still advertises a primary
activity on `'a'..'z'` next to the activities the blueprint asks for; the key `'z'` is
then covered by the region of a primary activity of peer 0 and of peer 1.  It is also
satisfied by a directory in which a peer 2, which the blueprint does not name, advertises
a primary activity on `'a'..'z'`; the key `'z'` is then covered by a primary activity of
peer 1 and of peer 2. -/
theorem single_primary_counterexample :
    ∃ blueprint, (test_cluster_group_t.mk [0, 1]).compile_blueprint "pn,np" = some blueprint ∧
      (is_blueprint_satisfied blueprint
        [(0, some ⟨[(1, (⟨97, 122⟩, .primary_t)), (2, (⟨97, 109⟩, .primary_t)),
                    (3, (⟨110, 122⟩, .nothing_t))]⟩),
         (1, some ⟨[(4, (⟨97, 109⟩, .nothing_t)), (5, (⟨110, 122⟩, .primary_t))]⟩)] = true ∧
      reactor_directory_find
        [(0, some ⟨[(1, (⟨97, 122⟩, .primary_t)), (2, (⟨97, 109⟩, .primary_t)),
                    (3, (⟨110, 122⟩, .nothing_t))]⟩),
         (1, some ⟨[(4, (⟨97, 109⟩, .nothing_t)), (5, (⟨110, 122⟩, .primary_t))]⟩)] 0
        = some (some ⟨[(1, (⟨97, 122⟩, .primary_t)), (2, (⟨97, 109⟩, .primary_t)),
                    (3, (⟨110, 122⟩, .nothing_t))]⟩) ∧
      (region_t.mk 97 122).contains 122 ∧
      reactor_directory_find
        [(0, some ⟨[(1, (⟨97, 122⟩, .primary_t)), (2, (⟨97, 109⟩, .primary_t)),
                    (3, (⟨110, 122⟩, .nothing_t))]⟩),
         (1, some ⟨[(4, (⟨97, 109⟩, .nothing_t)), (5, (⟨110, 122⟩, .primary_t))]⟩)] 1
        = some (some ⟨[(4, (⟨97, 109⟩, .nothing_t)), (5, (⟨110, 122⟩, .primary_t))]⟩) ∧
      (region_t.mk 110 122).contains 122 ∧ (0 : peer_id_t) ≠ 1) ∧
      (is_blueprint_satisfied blueprint
        [(0, some ⟨[(2, (⟨97, 109⟩, .primary_t)), (3, (⟨110, 122⟩, .nothing_t))]⟩),
         (1, some ⟨[(4, (⟨97, 109⟩, .nothing_t)), (5, (⟨110, 122⟩, .primary_t))]⟩),
         (2, some ⟨[(9, (⟨97, 122⟩, .primary_t))]⟩)] = true ∧
      reactor_directory_find
        [(0, some ⟨[(2, (⟨97, 109⟩, .primary_t)), (3, (⟨110, 122⟩, .nothing_t))]⟩),
         (1, some ⟨[(4, (⟨97, 109⟩, .nothing_t)), (5, (⟨110, 122⟩, .primary_t))]⟩),
         (2, some ⟨[(9, (⟨97, 122⟩, .primary_t))]⟩)] 1
        = some (some ⟨[(4, (⟨97, 109⟩, .nothing_t)), (5, (⟨110, 122⟩, .primary_t))]⟩) ∧
      reactor_directory_find
        [(0, some ⟨[(2, (⟨97, 109⟩, .primary_t)), (3, (⟨110, 122⟩, .nothing_t))]⟩),
         (1, some ⟨[(4, (⟨97, 109⟩, .nothing_t)), (5, (⟨110, 122⟩, .primary_t))]⟩),
         (2, some ⟨[(9, (⟨97, 122⟩, .primary_t))]⟩)] 2
        = some (some ⟨[(9, (⟨97, 122⟩, .primary_t))]⟩) ∧
      (1 : peer_id_t) ≠ 2) :=
  ⟨⟨[(0, [(⟨97, 109⟩, .role_primary), (⟨110, 122⟩, .role_nothing)]),
     (1, [(⟨97, 109⟩, .role_nothing), (⟨110, 122⟩, .role_primary)])]⟩,
   by decide,
   ⟨by decide, by decide, by decide, by decide, by decide, by decide⟩,
   ⟨by decide, by decide, by decide, by decide⟩⟩

/-- C3, amended: for every string whose tokens all have the same length `n` with `1 ≤ n`
and `26 * n < 2^32`, consist only of `'p'`, `'s'`, `'n'`, and hold `'p'` at every position
in exactly one token, compiled on pairwise distinct peers with no more tokens than
machines, and for every directory `dir` that satisfies the compiled blueprint and in
which no business card holds two activities with overlapping regions: every key in
`'a'..'z'` is covered by the region of a primary activity advertised by exactly one peer
of the blueprint; and when every present card of `dir` belongs to a peer of the
blueprint, by exactly one peer in `dir`. -/
theorem single_primary_under_satisfaction (g : test_cluster_group_t) (bp : String) (n : Nat)
    (hg : g.test_clusters.Nodup)
    (hlen : (tokenize bp.data).length ≤ g.test_clusters.length)
    (hn1 : 1 ≤ n) (hn : 26 * n < 4294967296)
    (htok : ∀ tok ∈ tokenize bp.data,
      tok.length = n ∧ ∀ c ∈ tok, c = 'p' ∨ c = 's' ∨ c = 'n')
    (hp : ∀ i, i < n →
      ((tokenize bp.data).filter (fun tok => tok[i]? = some 'p')).length = 1) :
    ∃ blueprint, g.compile_blueprint bp = some blueprint ∧
      ∀ dir, is_blueprint_satisfied blueprint dir = true → activities_disjoint dir →
        ∀ k, 97 ≤ k → k ≤ 122 →
          (∃! peer, (∃ roles, (peer, roles) ∈ blueprint.peers_roles) ∧
            ∃ bcard id r, reactor_directory_find dir peer = some (some bcard) ∧
              (id, (r, activity_t.primary_t)) ∈ bcard.activities ∧ r.contains k) ∧
          (cards_of_blueprint_peers blueprint dir →
            ∃! peer, ∃ bcard id r, reactor_directory_find dir peer = some (some bcard) ∧
              (id, (r, activity_t.primary_t)) ∈ bcard.activities ∧ r.contains k) := by
  obtain ⟨blueprint, hbp, hkey⟩ := compiled_primary g bp n hg hlen hn1 hn htok hp
  refine ⟨blueprint, hbp, ?_⟩
  intro dir hsat hdis k hk1 hk2
  obtain ⟨p0, roles0, i0, -, hmem0, hr0, hc0, huniq, hcover⟩ := hkey k hk1 hk2
  have hall := (is_blueprint_satisfied_iff blueprint dir).1 hsat
  obtain ⟨bcard0, hf0, hs0⟩ := hall p0 roles0 hmem0
  obtain ⟨l₁, id0, a0, l₂, heq0, -, hacc0⟩ := (scan_found_iff _ _ _).1 (hs0 _ _ hr0)
  have ha0 : a0 = .primary_t := by
    cases a0 <;> simp [role_accepts] at hacc0
    rfl
  subst ha0
  have hex : ∃ bcard id r, reactor_directory_find dir p0 = some (some bcard) ∧
      (id, (r, activity_t.primary_t)) ∈ bcard.activities ∧ r.contains k :=
    ⟨bcard0, id0, region_of_position i0 n, hf0, by simp [heq0], hc0⟩
  have key : ∀ p roles bcard id r, (p, roles) ∈ blueprint.peers_roles →
      reactor_directory_find dir p = some (some bcard) →
      (id, (r, activity_t.primary_t)) ∈ bcard.activities → r.contains k → p = p0 := by
    intro p roles bcard id r hmem hf hact hc
    obtain ⟨role, hrole⟩ := hcover p roles hmem
    obtain ⟨bcard', hf', hs'⟩ := hall p roles hmem
    rw [hf] at hf'
    simp only [Option.some.injEq] at hf'
    subst hf'
    obtain ⟨m₁, id', a, m₂, heq, -, hacc⟩ := (scan_found_iff _ _ _).1 (hs' _ _ hrole)
    have hact' : (id', (region_of_position i0 n, a)) ∈ bcard.activities := by simp [heq]
    by_cases hsame : (id', (region_of_position i0 n, a)) = (id, (r, activity_t.primary_t))
    · simp only [Prod.mk.injEq] at hsame
      obtain ⟨-, -, ha⟩ := hsame
      subst ha
      have hrp : role = .role_primary := by
        cases role <;> simp [role_accepts] at hacc
        rfl
      exact (huniq p roles _ role hmem hrole hc0).2 hrp
    · have hsym : Symmetric (fun x y : reactor_activity_id_t × (region_t × activity_t) =>
          ∀ k, ¬ (x.2.1.contains k ∧ y.2.1.contains k)) :=
        fun x y h k hk => h k ⟨hk.2, hk.1⟩
      exact absurd ⟨hc0, hc⟩ ((hdis p bcard hf).forall hsym hact' hact hsame k)
  constructor
  · refine ⟨p0, ⟨⟨roles0, hmem0⟩, hex⟩, ?_⟩
    rintro p ⟨⟨roles, hmem⟩, bcard, id, r, hf, hact, hc⟩
    exact key p roles bcard id r hmem hf hact hc
  · intro hcards
    refine ⟨p0, hex, ?_⟩
    rintro p ⟨bcard, id, r, hf, hact, hc⟩
    obtain ⟨roles, hmem⟩ := hcards p bcard hf
    exact key p roles bcard id r hmem hf hact hc

theorem activities_disjoint_example :
    activities_disjoint
      [(10, some ⟨[(1, (⟨97, 109⟩, .primary_t)), (2, (⟨110, 122⟩, .nothing_t))]⟩),
       (20, some ⟨[(1, (⟨97, 109⟩, .nothing_t)), (2, (⟨110, 122⟩, .primary_t))]⟩)] := by
  intro peer bcard h
  simp only [reactor_directory_find] at h
  split_ifs at h
  · simp only [Option.some.injEq] at h
    subst h
    refine List.pairwise_pair.2 ?_
    rintro k ⟨h1, h2⟩
    simp only [region_t.contains] at h1 h2
    omega
  · simp only [Option.some.injEq] at h
    subst h
    refine List.pairwise_pair.2 ?_
    rintro k ⟨h1, h2⟩
    simp only [region_t.contains] at h1 h2
    omega

theorem cards_of_blueprint_peers_example :
    cards_of_blueprint_peers
      ⟨[(10, [(⟨97, 109⟩, .role_primary), (⟨110, 122⟩, .role_nothing)]),
        (20, [(⟨97, 109⟩, .role_nothing), (⟨110, 122⟩, .role_primary)])]⟩
      [(10, some ⟨[(1, (⟨97, 109⟩, .primary_t)), (2, (⟨110, 122⟩, .nothing_t))]⟩),
       (20, some ⟨[(1, (⟨97, 109⟩, .nothing_t)), (2, (⟨110, 122⟩, .primary_t))]⟩)] := by
  intro peer bcard h
  simp only [reactor_directory_find] at h
  split_ifs at h with h1 h2
  · subst h1
    exact ⟨_, List.mem_cons_self _ _⟩
  · subst h2
    exact ⟨_, List.mem_cons_of_mem _ (List.mem_cons_self _ _)⟩

/-- Witness for the amended C3: the blueprint of `"pn,np"` on peers 10 and 20 and a
directory that satisfies it, in which each peer advertises one activity per region. -/
theorem single_primary_under_satisfaction_witness :
    ∃ blueprint, (test_cluster_group_t.mk [10, 20]).compile_blueprint "pn,np" = some blueprint ∧
      is_blueprint_satisfied blueprint
        [(10, some ⟨[(1, (⟨97, 109⟩, .primary_t)), (2, (⟨110, 122⟩, .nothing_t))]⟩),
         (20, some ⟨[(1, (⟨97, 109⟩, .nothing_t)), (2, (⟨110, 122⟩, .primary_t))]⟩)] = true ∧
      activities_disjoint
        [(10, some ⟨[(1, (⟨97, 109⟩, .primary_t)), (2, (⟨110, 122⟩, .nothing_t))]⟩),
         (20, some ⟨[(1, (⟨97, 109⟩, .nothing_t)), (2, (⟨110, 122⟩, .primary_t))]⟩)] ∧
      cards_of_blueprint_peers blueprint
        [(10, some ⟨[(1, (⟨97, 109⟩, .primary_t)), (2, (⟨110, 122⟩, .nothing_t))]⟩),
         (20, some ⟨[(1, (⟨97, 109⟩, .nothing_t)), (2, (⟨110, 122⟩, .primary_t))]⟩)] ∧
      ∀ k, 97 ≤ k → k ≤ 122 →
        ∃! peer, ∃ bcard id r,
          reactor_directory_find
            [(10, some ⟨[(1, (⟨97, 109⟩, .primary_t)), (2, (⟨110, 122⟩, .nothing_t))]⟩),
             (20, some ⟨[(1, (⟨97, 109⟩, .nothing_t)), (2, (⟨110, 122⟩, .primary_t))]⟩)]
            peer = some (some bcard) ∧
          (id, (r, activity_t.primary_t)) ∈ bcard.activities ∧ r.contains k := by
  obtain ⟨blueprint, hbp, h⟩ := single_primary_under_satisfaction ⟨[10, 20]⟩ "pn,np" 2
    (by decide) (by decide) (by decide) (by decide) (by decide) (by decide)
  have hc : (test_cluster_group_t.mk [10, 20]).compile_blueprint "pn,np" =
      some ⟨[(10, [(⟨97, 109⟩, .role_primary), (⟨110, 122⟩, .role_nothing)]),
        (20, [(⟨97, 109⟩, .role_nothing), (⟨110, 122⟩, .role_primary)])]⟩ := by decide
  rw [hc] at hbp
  simp only [Option.some.injEq] at hbp
  subst hbp
  exact ⟨_, hc, by decide, activities_disjoint_example, cards_of_blueprint_peers_example,
    fun k h1 h2 => (h _ (by decide) activities_disjoint_example k h1 h2).2
      cards_of_blueprint_peers_example⟩

/-! ## The bounded wait -/

theorem await_change_some {pred : reactor_directory_t → Bool} {timeout t : Nat}
    {changes : List (Nat × reactor_directory_t)}
    (h : await_change pred timeout changes = some t) :
    ∃ dir, (t, dir) ∈ changes ∧ t < timeout ∧ pred dir = true := by
  induction changes with
  | nil => simp [await_change] at h
  | cons c rest ih =>
    obtain ⟨t', d⟩ := c
    simp only [await_change] at h
    split_ifs at h with h1 h2
    · simp only [Option.some.injEq] at h
      subst h
      exact ⟨d, List.mem_cons_self _ _, by omega, h2⟩
    · obtain ⟨dir, hm, hlt, hp⟩ := ih h
      exact ⟨dir, List.mem_cons_of_mem _ hm, hlt, hp⟩

theorem await_change_of_accepted {pred : reactor_directory_t → Bool} {timeout : Nat}
    {changes : List (Nat × reactor_directory_t)}
    (hsorted : changes.Pairwise (fun a b => a.1 ≤ b.1))
    (h : ∃ c ∈ changes, c.1 < timeout ∧ pred c.2 = true) :
    ∃ t, await_change pred timeout changes = some t := by
  induction changes with
  | nil =>
    obtain ⟨c, hc, -⟩ := h
    cases hc
  | cons c rest ih =>
    obtain ⟨t', d⟩ := c
    obtain ⟨hle, hrest⟩ := List.pairwise_cons.1 hsorted
    obtain ⟨c', hc', hlt, hp⟩ := h
    have ht' : ¬ timeout ≤ t' := by
      rcases List.mem_cons.1 hc' with rfl | hin
      · simpa using hlt
      · have := hle c' hin
        simp only at this
        omega
    simp only [await_change, if_neg ht']
    by_cases hd : pred d = true
    · exact ⟨t', by simp [hd]⟩
    · simp only [hd, Bool.false_eq_true, if_false]
      rcases List.mem_cons.1 hc' with rfl | hin
      · exact absurd hp hd
      · exact ih hrest ⟨c', hin, hlt, hp⟩

/-- A directory that the check accepts leaves no assignment of the blueprint
unsatisfied. -/
theorem unsatisfied_assignments_of_satisfied (bp : blueprint_t) (dir : reactor_directory_t)
    (h : is_blueprint_satisfied bp dir = true) : unsatisfied_assignments bp dir = [] := by
  have hall := (is_blueprint_satisfied_iff bp dir).1 h
  unfold unsatisfied_assignments
  rw [List.flatten_eq_nil_iff]
  intro l hl
  obtain ⟨⟨peer, roles⟩, he, rfl⟩ := List.mem_map.1 hl
  obtain ⟨bcard, hf, hs⟩ := hall peer roles he
  rw [List.map_eq_nil_iff, List.filter_eq_nil_iff]
  rintro ⟨region, role⟩ hrr
  simp [hf, hs region role hrr]

/-- The empty blueprint is satisfied by the directory as it is at the call, so the wait
succeeds whatever the directory does. -/
theorem wait_empty_blueprint (current : reactor_directory_t)
    (changes : List (Nat × reactor_directory_t)) :
    wait_until_blueprint_is_satisfied ⟨[]⟩ current changes = .satisfied := rfl

/-- A directory that starts to satisfy the blueprint of `"p,n"` 2000 ms after the call
comes after the timer: the wait ends in the timeout failure. -/
theorem wait_late_change_example :
    wait_until_blueprint_is_satisfied
        ⟨[(0, [(⟨97, 122⟩, .role_primary)]), (1, [(⟨97, 122⟩, .role_nothing)])]⟩
        [(0, some ⟨[]⟩), (1, some ⟨[]⟩)]
        [(2000, [(0, some ⟨[(1, (⟨97, 122⟩, .primary_t))]⟩),
                 (1, some ⟨[(1, (⟨97, 122⟩, .nothing_t))]⟩)])]
      = .timeout_failure timeout_message := rfl

/-- C8, refuted as stated: for the blueprint of `"p,n"`, a run in which the directory
leaves the assignment of peer 1 unsatisfied and a run in which it leaves the assignment
of peer 0 unsatisfied end in the same failure, so the failure does not carry the mismatch
set. -/
theorem wait_timeout_counterexample :
    wait_until_blueprint_is_satisfied
        ⟨[(0, [(⟨97, 122⟩, .role_primary)]), (1, [(⟨97, 122⟩, .role_nothing)])]⟩
        [(0, some ⟨[(1, (⟨97, 122⟩, .primary_t))]⟩), (1, some ⟨[]⟩)] [] =
      wait_until_blueprint_is_satisfied
        ⟨[(0, [(⟨97, 122⟩, .role_primary)]), (1, [(⟨97, 122⟩, .role_nothing)])]⟩
        [(0, some ⟨[]⟩), (1, some ⟨[(1, (⟨97, 122⟩, .nothing_t))]⟩)] [] ∧
    wait_until_blueprint_is_satisfied
        ⟨[(0, [(⟨97, 122⟩, .role_primary)]), (1, [(⟨97, 122⟩, .role_nothing)])]⟩
        [(0, some ⟨[(1, (⟨97, 122⟩, .primary_t))]⟩), (1, some ⟨[]⟩)] [] ≠ .satisfied ∧
    unsatisfied_assignments
        ⟨[(0, [(⟨97, 122⟩, .role_primary)]), (1, [(⟨97, 122⟩, .role_nothing)])]⟩
        [(0, some ⟨[(1, (⟨97, 122⟩, .primary_t))]⟩), (1, some ⟨[]⟩)]
      = [(1, ⟨97, 122⟩, .role_nothing)] ∧
    unsatisfied_assignments
        ⟨[(0, [(⟨97, 122⟩, .role_primary)]), (1, [(⟨97, 122⟩, .role_nothing)])]⟩
        [(0, some ⟨[]⟩), (1, some ⟨[(1, (⟨97, 122⟩, .nothing_t))]⟩)]
      = [(0, ⟨97, 122⟩, .role_primary)] := by
  refine ⟨rfl, ?_, by decide, by decide⟩
  intro h
  cases h

/-- C8, amended: for a directory whose changes come in order of time,
`wait_until_blueprint_is_satisfied` ends in success exactly when the directory as it is
at the call, or a value it takes less than 2000 ms after the call, is accepted by
`is_blueprint_satisfied`; the accepted value then leaves no assignment of the blueprint
unsatisfied.  Otherwise the call ends in a timeout failure, and the failure is the same
for every run on the same blueprint that times out, so it carries no observed activity
and no mismatch set. -/
theorem wait_timeout_outcome (bp : blueprint_t) (current : reactor_directory_t)
    (changes : List (Nat × reactor_directory_t))
    (hsorted : changes.Pairwise (fun a b => a.1 ≤ b.1)) :
    (wait_until_blueprint_is_satisfied bp current changes = .satisfied ↔
      (is_blueprint_satisfied bp current = true ∨
        ∃ c ∈ changes, c.1 < 2000 ∧ is_blueprint_satisfied bp c.2 = true)) ∧
    (wait_until_blueprint_is_satisfied bp current changes = .satisfied →
      ∃ dir, (dir = current ∨ ∃ t, t < 2000 ∧ (t, dir) ∈ changes) ∧
        is_blueprint_satisfied bp dir = true ∧ unsatisfied_assignments bp dir = []) ∧
    (wait_until_blueprint_is_satisfied bp current changes ≠ .satisfied →
      ∃ message,
        wait_until_blueprint_is_satisfied bp current changes = .timeout_failure message ∧
        ∀ current' changes',
          wait_until_blueprint_is_satisfied bp current' changes' ≠ .satisfied →
          wait_until_blueprint_is_satisfied bp current' changes' = .timeout_failure message) := by
  have hfail : ∀ (cur : reactor_directory_t) (chs : List (Nat × reactor_directory_t)),
      wait_until_blueprint_is_satisfied bp cur chs ≠ .satisfied →
      wait_until_blueprint_is_satisfied bp cur chs = .timeout_failure timeout_message := by
    intro cur chs h
    unfold wait_until_blueprint_is_satisfied at h ⊢
    cases hr : run_until_satisfied (fun dir => is_blueprint_satisfied bp dir) 2000 cur chs with
    | none => rfl
    | some t => simp [hr] at h
  have hsome : wait_until_blueprint_is_satisfied bp current changes = .satisfied →
      ∃ dir, (dir = current ∨ ∃ t, t < 2000 ∧ (t, dir) ∈ changes) ∧
        is_blueprint_satisfied bp dir = true := by
    intro h
    unfold wait_until_blueprint_is_satisfied at h
    cases hr : run_until_satisfied (fun dir => is_blueprint_satisfied bp dir) 2000
        current changes with
    | none => simp [hr] at h
    | some t =>
      unfold run_until_satisfied at hr
      by_cases hcur : is_blueprint_satisfied bp current = true
      · exact ⟨current, Or.inl rfl, hcur⟩
      · simp only [hcur, Bool.false_eq_true, if_false] at hr
        obtain ⟨dir, hm, hlt, hp⟩ := await_change_some hr
        exact ⟨dir, Or.inr ⟨t, hlt, hm⟩, hp⟩
  refine ⟨⟨?_, ?_⟩, ?_, ?_⟩
  · intro h
    obtain ⟨dir, hdir, hsat⟩ := hsome h
    rcases hdir with rfl | ⟨t, hlt, hm⟩
    · exact Or.inl hsat
    · exact Or.inr ⟨(t, dir), hm, hlt, hsat⟩
  · intro h
    unfold wait_until_blueprint_is_satisfied run_until_satisfied
    by_cases hcur : is_blueprint_satisfied bp current = true
    · simp [hcur]
    · rcases h with h | h
      · exact absurd h hcur
      · obtain ⟨t, ht⟩ := await_change_of_accepted hsorted h
        simp [hcur, ht]
  · intro h
    obtain ⟨dir, hdir, hsat⟩ := hsome h
    exact ⟨dir, hdir, hsat, unsatisfied_assignments_of_satisfied bp dir hsat⟩
  · intro h
    exact ⟨timeout_message, hfail current changes h, hfail⟩

/-- Witness for the amended C8: the blueprint of `"p,n"`, a directory with two empty cards
at the call, a change after 500 ms that the check rejects and a change after 1500 ms that
it accepts. -/
theorem wait_timeout_outcome_witness :
    List.Pairwise (fun a b : Nat × reactor_directory_t => a.1 ≤ b.1)
      [(500, [(0, some ⟨[(1, (⟨97, 122⟩, .primary_t))]⟩), (1, some ⟨[]⟩)]),
       (1500, [(0, some ⟨[(1, (⟨97, 122⟩, .primary_t))]⟩),
               (1, some ⟨[(1, (⟨97, 122⟩, .nothing_t))]⟩)])] ∧
    wait_until_blueprint_is_satisfied
        ⟨[(0, [(⟨97, 122⟩, .role_primary)]), (1, [(⟨97, 122⟩, .role_nothing)])]⟩
        [(0, some ⟨[]⟩), (1, some ⟨[]⟩)]
        [(500, [(0, some ⟨[(1, (⟨97, 122⟩, .primary_t))]⟩), (1, some ⟨[]⟩)]),
         (1500, [(0, some ⟨[(1, (⟨97, 122⟩, .primary_t))]⟩),
                 (1, some ⟨[(1, (⟨97, 122⟩, .nothing_t))]⟩)])]
      = .satisfied :=
  ⟨List.pairwise_pair.2 (by decide),
   (wait_timeout_outcome
      ⟨[(0, [(⟨97, 122⟩, .role_primary)]), (1, [(⟨97, 122⟩, .role_nothing)])]⟩
      [(0, some ⟨[]⟩), (1, some ⟨[]⟩)]
      [(500, [(0, some ⟨[(1, (⟨97, 122⟩, .primary_t))]⟩), (1, some ⟨[]⟩)]),
       (1500, [(0, some ⟨[(1, (⟨97, 122⟩, .primary_t))]⟩),
               (1, some ⟨[(1, (⟨97, 122⟩, .nothing_t))]⟩)])]
      (List.pairwise_pair.2 (by decide))).1.2
     (Or.inr ⟨(1500, [(0, some ⟨[(1, (⟨97, 122⟩, .primary_t))]⟩),
                      (1, some ⟨[(1, (⟨97, 122⟩, .nothing_t))]⟩)]),
       by simp, by decide, by decide⟩)⟩

end unittest
